import Mathlib

/- Verification of the sm64-seam-tool core: an executable model of the IEEE-754
binary32 ("f32") arithmetic the tool relies on, the edge acceptance predicate
from src/edge.rs, and the incremental seam sweep engine from
src/seam_processor.rs.  The crate modules float_range.rs, seam.rs,
game_state.rs and spatial_partition.rs are not present under src/; every
definition taken from one of them is modelled from the specification and its
doc comment says so. -/

set_option maxRecDepth 4000
set_option exponentiation.threshold 600

/-- Bit length of a natural number, driven by explicit fuel so that the kernel
can evaluate it on literals.  With fuel at least log2 n + 1 it returns the
number of binary digits of n (0 for n = 0). -/
def bitLen : Nat → Nat → Nat
  | 0, _ => 0
  | fuel + 1, n => if n = 0 then 0 else bitLen fuel (n / 2) + 1

/-- Model of a Rust `f32` value.  A finite value `fin s e m` denotes
(-1)^s * m * 2^e; `inf s` denotes the infinity of sign s (true = negative) and
`nan` the (single, since payloads are unobservable here) NaN value. -/
inductive F32 where
  | nan : F32
  | inf : Bool → F32
  | fin : Bool → Int → Nat → F32
deriving DecidableEq, Repr

/-- A finite representation is canonical when it is the unique IEEE-754
binary32 encoding of its value: either subnormal (exponent -149, significand
below 2^23, including the two zeros) or normal (significand in [2^23, 2^24),
exponent in [-149, 104]).  Every actual f32 bit pattern corresponds to exactly
one canonical representation. -/
def F32.IsCanon : F32 → Prop
  | .nan => True
  | .inf _ => True
  | .fin _ e m => (e = -149 ∧ m < 2 ^ 23) ∨ (-149 ≤ e ∧ e ≤ 104 ∧ 2 ^ 23 ≤ m ∧ m < 2 ^ 24)

instance : DecidablePred F32.IsCanon := by
  intro x
  cases x <;> simp only [F32.IsCanon] <;> infer_instance

/-- Magnitude comparison m1 * 2^e1 < m2 * 2^e2, computed exactly on naturals
after aligning the two exponents. -/
def F32.magLT (e1 : Int) (m1 : Nat) (e2 : Int) (m2 : Nat) : Bool :=
  decide (m1 * 2 ^ (e1 - min e1 e2).toNat < m2 * 2 ^ (e2 - min e1 e2).toNat)

/-- Magnitude equality m1 * 2^e1 = m2 * 2^e2. -/
def F32.magEQ (e1 : Int) (m1 : Nat) (e2 : Int) (m2 : Nat) : Bool :=
  decide (m1 * 2 ^ (e1 - min e1 e2).toNat = m2 * 2 ^ (e2 - min e1 e2).toNat)

/-- Strict order on two finite values given by sign/exponent/significand. -/
def F32.finLt (s1 : Bool) (e1 : Int) (m1 : Nat) (s2 : Bool) (e2 : Int) (m2 : Nat) : Bool :=
  match s1, s2 with
  | false, false => F32.magLT e1 m1 e2 m2
  | true, true => F32.magLT e2 m2 e1 m1
  | true, false => !(m1 == 0 && m2 == 0)
  | false, true => false

/-- IEEE `<` on f32 values: any comparison with NaN is false, -0 < +0 is
false, infinities compare as expected. -/
def F32.lt : F32 → F32 → Bool
  | .nan, _ => false
  | _, .nan => false
  | .inf s1, .inf s2 => s1 && !s2
  | .inf s1, .fin _ _ _ => s1
  | .fin _ _ _, .inf s2 => !s2
  | .fin s1 e1 m1, .fin s2 e2 m2 => F32.finLt s1 e1 m1 s2 e2 m2

/-- IEEE `==` on f32 values: NaN is equal to nothing (itself included),
-0 == +0. -/
def F32.beq : F32 → F32 → Bool
  | .nan, _ => false
  | _, .nan => false
  | .inf s1, .inf s2 => s1 == s2
  | .inf _, .fin _ _ _ => false
  | .fin _ _ _, .inf _ => false
  | .fin s1 e1 m1, .fin s2 e2 m2 => (m1 == 0 && m2 == 0) || (s1 == s2 && F32.magEQ e1 m1 e2 m2)

/-- IEEE `<=`. -/
def F32.le (a b : F32) : Bool := a.lt b || a.beq b

/-- IEEE `>`. -/
def F32.gt (a b : F32) : Bool := b.lt a

/-- IEEE `>=`. -/
def F32.ge (a b : F32) : Bool := b.le a

/-- Rational semantics of an f32 value, for proofs: finite values denote their
exact rational value; the infinities are mapped to ±2^200, strictly beyond
every canonical finite magnitude, so that the order on non-NaN values is
reflected; NaN (never compared equal for this purpose) is sent to 0. -/
def F32.valQ : F32 → ℚ
  | .nan => 0
  | .inf s => if s then -(2 ^ 200) else 2 ^ 200
  | .fin s e m => (if s then (-1 : ℚ) else 1) * m * (2 : ℚ) ^ e

/-- Round the exact value (-1)^s * (m + sticky*epsilon) * 2^e to the nearest
IEEE-754 binary32 value, ties to even, where `sticky` records that an
infinitesimally small positive remainder beyond m * 2^e was discarded (used
only when converting decimal literals).  Overflow produces an infinity,
underflow a (signed) zero or subnormal.  The result is canonical whenever
m < 2^400 (the fuel of `bitLen`). -/
def F32.roundSticky (s : Bool) (m : Nat) (e : Int) (sticky : Bool) : F32 :=
  if m = 0 then F32.fin s (-149) 0
  else
    let L : Int := bitLen 400 m
    let E := max (e + L - 24) (-149)
    let shift := E - e
    if shift ≤ 0 then
      if E > 104 then F32.inf s
      else F32.fin s E (m * 2 ^ (-shift).toNat)
    else
      let q := m / 2 ^ shift.toNat
      let r := m % 2 ^ shift.toNat
      let r2 := 2 * r + (if sticky then 1 else 0)
      let half := 2 ^ shift.toNat
      let up := decide (r2 > half) || (decide (r2 = half) && decide (q % 2 = 1))
      let M := q + (if up then 1 else 0)
      if M = 2 ^ 24 then
        if E + 1 > 104 then F32.inf s else F32.fin s (E + 1) (2 ^ 23)
      else if E > 104 then F32.inf s
      else F32.fin s E M

/-- The signed integer (-1)^s * m. -/
def F32.sgnInt (s : Bool) (m : Nat) : Int := if s then -(m : Int) else (m : Int)

/-- IEEE binary32 addition, round to nearest even: the exact sum is formed by
aligning the two exponents, then rounded.  An exact zero sum from nonzero
operands is +0; (+-0) + (+-0) is -0 only when both operands are -0. -/
def F32.add : F32 → F32 → F32
  | .nan, _ => .nan
  | _, .nan => .nan
  | .inf s1, .inf s2 => if s1 == s2 then .inf s1 else .nan
  | .inf s1, .fin _ _ _ => .inf s1
  | .fin _ _ _, .inf s2 => .inf s2
  | .fin s1 e1 m1, .fin s2 e2 m2 =>
    let d := min e1 e2
    let S : Int := F32.sgnInt s1 m1 * 2 ^ (e1 - d).toNat + F32.sgnInt s2 m2 * 2 ^ (e2 - d).toNat
    if S = 0 then
      if m1 = 0 && m2 = 0 then F32.fin (s1 && s2) (-149) 0 else F32.fin false (-149) 0
    else F32.roundSticky (decide (S < 0)) S.natAbs d false

/-- IEEE negation (sign-bit flip). -/
def F32.neg : F32 → F32
  | .nan => .nan
  | .inf s => .inf (!s)
  | .fin s e m => .fin (!s) e m

/-- IEEE binary32 subtraction: a - b = a + (-b) exactly. -/
def F32.sub (a b : F32) : F32 := a.add b.neg

/-- IEEE binary32 multiplication, round to nearest even. -/
def F32.mul : F32 → F32 → F32
  | .nan, _ => .nan
  | _, .nan => .nan
  | .inf s1, .inf s2 => .inf (xor s1 s2)
  | .inf s1, .fin s2 _ m2 => if m2 = 0 then .nan else .inf (xor s1 s2)
  | .fin s1 _ m1, .inf s2 => if m1 = 0 then .nan else .inf (xor s1 s2)
  | .fin s1 e1 m1, .fin s2 e2 m2 =>
    if m1 * m2 = 0 then F32.fin (xor s1 s2) (-149) 0
    else F32.roundSticky (xor s1 s2) (m1 * m2) (e1 + e2) false

/-- Rust `f32::max`: if one argument is NaN the other is returned, otherwise
the larger one (on a -0/+0 tie this model returns the first argument, one of
the behaviours Rust permits). -/
def f32_max (a b : F32) : F32 :=
  if a = F32.nan then b
  else if b = F32.nan then a
  else if a.lt b then b else a

/-- Rust `f32::min`: if one argument is NaN the other is returned, otherwise
the smaller one (on a -0/+0 tie this model returns the second argument). -/
def f32_min (a b : F32) : F32 :=
  if a = F32.nan then b
  else if b = F32.nan then a
  else if a.lt b then a else b

/-- Modelled from the spec: `next_representable(x)` (float_range.rs, absent
from src/) "returns the smallest representable value strictly greater than x,
guaranteeing forward sweep progress".  On canonical representations this is
the successor in the value order; +inf (which has no successor) and NaN are
mapped to themselves. -/
def next_f32 : F32 → F32
  | .nan => .nan
  | .inf true => .fin true 104 (2 ^ 24 - 1)
  | .inf false => .inf false
  | .fin false e m =>
    if m + 1 < 2 ^ 24 then F32.fin false e (m + 1)
    else if e + 1 > 104 then F32.inf false
    else F32.fin false (e + 1) (2 ^ 23)
  | .fin true e m =>
    if m = 0 then F32.fin false (-149) 1
    else if 2 ^ 23 ≤ m - 1 ∨ e = -149 then F32.fin true e (m - 1)
    else F32.fin true (e - 1) (2 ^ 24 - 1)

/-- Modelled from the spec: `flush_f32_to_zero` (float_range.rs, absent from
src/): "denormal results are forced to exact zero, replicating the target
game's runtime truncation".  A canonical subnormal (nonzero, magnitude below
2^-126) becomes +0; every other value is returned unchanged. -/
def flush_f32_to_zero (x : F32) : F32 :=
  match x with
  | F32.fin _ e m => if e = -149 ∧ 0 < m ∧ m < 2 ^ 23 then F32.fin false (-149) 0 else x
  | _ => x

/-- The f32 nearest to an integer (exact for |n| < 2^24, so for every i16). -/
def F32.ofInt (n : Int) : F32 :=
  if n = 0 then F32.fin false (-149) 0
  else F32.roundSticky (decide (n < 0)) n.natAbs 0 false

/-- The f32 nearest to num/den (used for the 0.707 literal of the wall
classifier): the quotient is computed with 280 guard bits and a sticky bit,
then rounded to nearest even. -/
def F32.ofRat (num : Int) (den : Nat) : F32 :=
  if den = 0 then F32.nan
  else if num = 0 then F32.fin false (-149) 0
  else F32.roundSticky (decide (num < 0)) (num.natAbs * 2 ^ 280 / den) (-280)
    (decide (num.natAbs * 2 ^ 280 % den ≠ 0))

/-- Ordinal of a nonnegative canonical (e, m) pair: the number of canonical
nonnegative finite values strictly below m * 2^e. -/
def F32.ordPos (e : Int) (m : Nat) : Int := (e + 149) * 2 ^ 23 + m

/-- Ordinal of an f32 value inside the value order on non-NaN values:
consecutive canonical values have consecutive ordinals, and -0/+0 share
ordinal 0.  Used as the termination measure of the sweep. -/
def F32.ord : F32 → Int
  | .nan => 0
  | .inf false => (104 + 149) * 2 ^ 23 + 2 ^ 24
  | .inf true => -((104 + 149) * 2 ^ 23 + 2 ^ 24)
  | .fin false e m => F32.ordPos e m
  | .fin true e m => -(F32.ordPos e m)

/-- Convenient canonical f32 constants: +0.0 ... -/
def F32.zero : F32 := F32.fin false (-149) 0

/-- The f32 literal 1.0. -/
def F32.one : F32 := F32.ofInt 1

/-- The f32 literal -1.0. -/
def F32.negOne : F32 := F32.ofInt (-1)

/-- Modelled from the spec: `RangeF32` (float_range.rs, absent from src/): a
float interval with a start and an end.  The sweep code treats `end` as
excluded, and "empty iff start ≥ end (half-open) or start > end (closed)"
holds with `inclusive(a, b)` representing the closed interval [a, b] as the
half-open [a, next_representable(b)). -/
structure RangeF32 where
  start : F32
  «end» : F32
deriving DecidableEq, Repr

/-- Modelled from the spec: `RangeF32::inclusive` constructs the closed range
[a, b]. -/
def RangeF32.inclusive (a b : F32) : RangeF32 := ⟨a, next_f32 b⟩

/-- Modelled from the spec: `RangeF32::inclusive_exclusive` constructs the
half-open range [a, b). -/
def RangeF32.inclusive_exclusive (a b : F32) : RangeF32 := ⟨a, b⟩

/-- Modelled from the spec: a half-open range is empty iff start ≥ end (an
IEEE comparison: a range with a NaN endpoint is never empty). -/
def RangeF32.is_empty (r : RangeF32) : Bool := r.start.ge r.«end»

/-- Rust derived `PartialEq` for `RangeF32`: fieldwise IEEE f32 equality. -/
def RangeF32.beqR (a b : RangeF32) : Bool := a.start.beq b.start && a.«end».beq b.«end»

/-- The axis along which a wall projects (src/edge.rs). -/
inductive ProjectionAxis where
  | X : ProjectionAxis
  | Z : ProjectionAxis
deriving DecidableEq, Repr

/-- A 3-component vector; the source uses arrays `[T; 3]`, fields x, y, z
stand for indices 0, 1, 2. -/
structure Vec3 (α : Type) where
  x : α
  y : α
  z : α
deriving DecidableEq, Repr

/-- `ProjectionAxis::of_wall` (src/edge.rs 13-19): X iff the normal's first
component is below -0.707 or above 0.707. -/
def ProjectionAxis.of_wall (normal : Vec3 F32) : ProjectionAxis :=
  if normal.x.lt (F32.ofRat (-707) 1000) || (F32.ofRat 707 1000).lt normal.x then
    ProjectionAxis.X
  else
    ProjectionAxis.Z

/-- The orientation of a wall (src/edge.rs; the source name `Orientation`
collides with a Mathlib declaration, hence the prefix). -/
inductive WallOrientation where
  | Positive : WallOrientation
  | Negative : WallOrientation
deriving DecidableEq, Repr

/-- `Orientation::of_wall` (src/edge.rs 45-62). -/
def WallOrientation.of_wall (normal : Vec3 F32) : WallOrientation :=
  match ProjectionAxis.of_wall normal with
  | ProjectionAxis.X =>
    if F32.zero.lt normal.x then WallOrientation.Positive else WallOrientation.Negative
  | ProjectionAxis.Z =>
    if normal.z.le F32.zero then WallOrientation.Positive else WallOrientation.Negative

/-- A projected point used for edge calculations (src/edge.rs 67-74). -/
structure ProjectedPoint (α : Type) where
  w : α
  y : α
deriving DecidableEq, Repr

/-- `ProjectedPoint::project` (src/edge.rs 78-89). -/
def ProjectedPoint.project {α : Type} (point : Vec3 α) (axis : ProjectionAxis) :
    ProjectedPoint α :=
  match axis with
  | ProjectionAxis.X => ⟨point.z, point.y⟩
  | ProjectionAxis.Z => ⟨point.x, point.y⟩

/-- An edge of a wall (src/edge.rs 96-101); the i16 vertex coordinates are
modelled as Int (every actual value satisfies |v| ≤ 32768 so the i16 → f32
conversion below is exact on them). -/
structure Edge where
  projection_axis : ProjectionAxis
  orientation : WallOrientation
  vertex1 : ProjectedPoint Int
  vertex2 : ProjectedPoint Int
deriving DecidableEq, Repr

/-- `Edge::new` (src/edge.rs 104-113). -/
def Edge.new (vertices : Vec3 Int × Vec3 Int) (normal : Vec3 F32) : Edge :=
  let projection_axis := ProjectionAxis.of_wall normal
  { projection_axis := projection_axis
    orientation := WallOrientation.of_wall normal
    vertex1 := ProjectedPoint.project vertices.1 projection_axis
    vertex2 := ProjectedPoint.project vertices.2 projection_axis }

/-- `Edge::is_vertical` (src/edge.rs 115-117). -/
def Edge.is_vertical (e : Edge) : Bool := e.vertex1.w == e.vertex2.w

/-- `Edge::w_range` (src/edge.rs 119-123). -/
def Edge.w_range (e : Edge) : RangeF32 :=
  let w1 := F32.ofInt e.vertex1.w
  let w2 := F32.ofInt e.vertex2.w
  RangeF32.inclusive (f32_min w1 w2) (f32_max w1 w2)

/-- `Edge::accepts_projected` (src/edge.rs 153-171): the core acceptance
predicate, evaluated in f32 with denormal flushing of the query point's
coordinates, of each product, and of the final difference. -/
def Edge.accepts_projected (e : Edge) (point : ProjectedPoint F32) : Bool :=
  let w := flush_f32_to_zero point.w
  let y := flush_f32_to_zero point.y
  let w1 := F32.ofInt e.vertex1.w
  let y1 := F32.ofInt e.vertex1.y
  let w2 := F32.ofInt e.vertex2.w
  let y2 := F32.ofInt e.vertex2.y
  let r := flush_f32_to_zero
    ((flush_f32_to_zero ((y1.sub y).mul (w2.sub w1))).sub
      (flush_f32_to_zero ((w1.sub w).mul (y2.sub y1))))
  match e.orientation with
  | WallOrientation.Positive => r.ge F32.zero
  | WallOrientation.Negative => r.le F32.zero

/-- The acceptance formula exactly as claim C1 words it: zero flushing is
applied only after each product and after the final subtraction, and the
query point's coordinates enter the inner subtractions unflushed. -/
def Edge.acceptsClaimFormula (e : Edge) (point : ProjectedPoint F32) : Bool :=
  let w1 := F32.ofInt e.vertex1.w
  let y1 := F32.ofInt e.vertex1.y
  let w2 := F32.ofInt e.vertex2.w
  let y2 := F32.ofInt e.vertex2.y
  let r := flush_f32_to_zero
    ((flush_f32_to_zero ((y1.sub point.y).mul (w2.sub w1))).sub
      (flush_f32_to_zero ((w1.sub point.w).mul (y2.sub y1))))
  match e.orientation with
  | WallOrientation.Positive => r.ge F32.zero
  | WallOrientation.Negative => r.le F32.zero

/-- The acceptance formula of claim C1 as amended: as above, but the query
point's two coordinates are themselves flushed to zero before entering the
inner subtractions (this is what src/edge.rs does). -/
def Edge.acceptsFlushedFormula (e : Edge) (point : ProjectedPoint F32) : Bool :=
  let w1 := F32.ofInt e.vertex1.w
  let y1 := F32.ofInt e.vertex1.y
  let w2 := F32.ofInt e.vertex2.w
  let y2 := F32.ofInt e.vertex2.y
  let r := flush_f32_to_zero
    ((flush_f32_to_zero ((y1.sub (flush_f32_to_zero point.y)).mul (w2.sub w1))).sub
      (flush_f32_to_zero ((w1.sub (flush_f32_to_zero point.w)).mul (y2.sub y1))))
  match e.orientation with
  | WallOrientation.Positive => r.ge F32.zero
  | WallOrientation.Negative => r.le F32.zero

/-- Modelled from the spec: `RangeStatus` (seam.rs, absent from src/):
{Unchecked, Skipped, Checked{has_gap, has_overlap}}. -/
inductive RangeStatus where
  | Unchecked : RangeStatus
  | Skipped : RangeStatus
  | Checked : Bool → Bool → RangeStatus
deriving DecidableEq, Repr

/-- Modelled from the spec: `PointStatus` (seam.rs, absent from src/), the
finer per-sample classification used in focused small-result mode; only the
`None` variant (filtered out of point batches) needs to be distinguished. -/
inductive PointStatus where
  | None : PointStatus
  | Gap : PointStatus
  | Overlap : PointStatus
deriving DecidableEq, Repr

/-- Modelled from the spec: `PointFilter` (seam.rs, absent from src/), the
classification filter selected by the consumer; only equality of filters
matters to the engine, so the variants are abstract apart from `None`. -/
inductive PointFilter where
  | None : PointFilter
  | Gap : PointFilter
  | Overlap : PointFilter
deriving DecidableEq, Repr

/-- Modelled from the spec: `Seam` (seam.rs, absent from src/): two edges
bounding the same physical region.  "Identity for caching purposes is the
full value of edge1/edge2", so equality compares exactly the two edges; the
spec's derived endpoint data does not enter identity and is omitted. -/
structure Seam where
  edge1 : Edge
  edge2 : Edge
deriving DecidableEq, Repr

/-- `SeamRequest` (src/seam_processor.rs 23-30). -/
structure SeamRequest where
  seam : Seam
  w_range : RangeF32
  segment_length : F32
  is_focused : Bool
  filter : PointFilter
deriving DecidableEq, Repr

/-- Rust derived `PartialEq` for `SeamRequest`: fieldwise, with IEEE equality
on the two f32-valued fields (a request containing a NaN is not equal to
itself, exactly as in Rust). -/
def SeamRequest.beqR (a b : SeamRequest) : Bool :=
  a.seam == b.seam && RangeF32.beqR a.w_range b.w_range &&
    a.segment_length.beq b.segment_length && a.is_focused == b.is_focused &&
    a.filter == b.filter

/-- `SeamProgress` (src/seam_processor.rs 66-71). -/
structure SeamProgress where
  segment_length : F32
  complete : List (RangeF32 × RangeStatus)
  remaining : RangeF32
deriving DecidableEq, Repr

/-- `SeamProgress::new` (src/seam_processor.rs 74-80). -/
def SeamProgress.new (range : RangeF32) (segment_length : F32) : SeamProgress :=
  ⟨segment_length, [], range⟩

/-- `SeamProgress::is_complete` (src/seam_processor.rs 89-91). -/
def SeamProgress.is_complete (p : SeamProgress) : Bool := p.remaining.is_empty

/-- `SeamProgress::complete_segment` (src/seam_processor.rs 122-133): append
the resolved segment as a new run, or extend the previous run when it is
contiguous (IEEE f32 equality of the endpoints) and of equal status; empty
segments are dropped.  The source's assert that status ≠ Unchecked is a
caller invariant carried as a hypothesis by the theorems below. -/
def SeamProgress.complete_segment (p : SeamProgress) (range : RangeF32)
    (status : RangeStatus) : SeamProgress :=
  if range.is_empty then p
  else
    match p.complete.getLast? with
    | some prev =>
      if prev.1.«end».beq range.start && prev.2 == status then
        { p with complete := p.complete.dropLast ++ [(⟨prev.1.start, range.«end»⟩, prev.2)] }
      else { p with complete := p.complete ++ [(range, status)] }
    | none => { p with complete := p.complete ++ [(range, status)] }

/-- `SeamProgress::take_next_segment` (src/seam_processor.rs 93-120). -/
def SeamProgress.take_next_segment (p : SeamProgress) : Option RangeF32 × SeamProgress :=
  if p.remaining.is_empty then (none, p)
  else
    let p :=
      if p.remaining.start.ge F32.negOne && p.remaining.start.lt F32.one then
        let split := f32_min F32.one p.remaining.«end»
        let skipped_range := RangeF32.inclusive_exclusive p.remaining.start split
        let p' := { p with remaining := ⟨split, p.remaining.«end»⟩ }
        p'.complete_segment skipped_range RangeStatus.Skipped
      else p
    if p.remaining.is_empty then (none, p)
    else
      let split0 :=
        f32_min (f32_max (p.remaining.start.add p.segment_length) (next_f32 p.remaining.start))
          p.remaining.«end»
      let split :=
        if p.remaining.start.lt F32.negOne && F32.negOne.lt split0 then F32.negOne else split0
      let result := RangeF32.inclusive_exclusive p.remaining.start split
      (some result, { p with remaining := ⟨split, p.remaining.«end»⟩ })

/-- The worker's planning loop (processor_thread, src/seam_processor.rs
340-343): collect every segment produced by `take_next_segment`, with fuel
making the recursion structural; the Bool records whether the loop observed
`None` (i.e. the plan is complete) within the fuel. -/
def planLoop : Nat → SeamProgress → List RangeF32 × SeamProgress × Bool
  | 0, p => ([], p, false)
  | fuel + 1, p =>
    match p.take_next_segment with
    | (none, p') => ([], p', true)
    | (some seg, p') =>
      let rest := planLoop fuel p'
      (seg :: rest.1, rest.2.1, rest.2.2)

/-- `SeamPoints` (src/seam_processor.rs 62-64). -/
structure SeamPoints where
  points : List (ProjectedPoint F32 × PointStatus)
deriving DecidableEq, Repr

/-- `SeamOutput` (src/seam_processor.rs 56-59). -/
inductive SeamOutput where
  | Points : SeamPoints → SeamOutput
  | Segments : SeamProgress → SeamOutput
deriving DecidableEq, Repr

/-- The worker's result fold (processor_thread, src/seam_processor.rs
375-378): fold each checked segment into the progress and snapshot the
progress after every step (each snapshot is sent to the consumer). -/
def processSegments (p : SeamProgress) : List (RangeF32 × RangeStatus) → List SeamProgress
  | [] => []
  | (seg, st) :: rest =>
    let p' := p.complete_segment seg st
    p' :: processSegments p' rest

/-- The worker body for one request (processor_thread, src/seam_processor.rs
331-382): plan all segments, check them, then either send one Points batch
(focused requests with few interesting points) or stream one Segments
snapshot per checked segment.  `checkRange` stands for
`Seam::check_range` and `points` for the per-point batch built from
`Seam::check_point` (both in seam.rs, absent from src/); they are abstract
inputs here since no claim depends on their values. -/
def workerOutputs (request : SeamRequest) (fuel : Nat)
    (checkRange : RangeF32 → Nat × RangeStatus) (points : SeamPoints) :
    List (SeamRequest × SeamOutput) :=
  let progress := SeamProgress.new request.w_range request.segment_length
  let plan := planLoop fuel progress
  let segment_statuses := plan.1.map (fun seg => (seg, checkRange seg))
  let num_interesting_points := (segment_statuses.map (fun x => x.2.1)).sum
  if request.is_focused && num_interesting_points ≤ 500 then
    [(request, SeamOutput.Points points)]
  else
    (processSegments plan.2.1 (segment_statuses.map (fun x => (x.1, x.2.2)))).map
      (fun p => (request, SeamOutput.Segments p))

/-- The consumer-side engine state (`SeamProcessor`, src/seam_processor.rs
144-152): the HashMap is an association list, the mutex-protected queue a
plain list, and the channel receiver is modelled by feeding each received
message to `updateRecvOne`. -/
structure SeamProcessor where
  active_seams : List Seam
  progress : List (Seam × SeamProgress)
  queue : List SeamRequest
  focused_seam : Option (SeamRequest × SeamOutput)
  filter : PointFilter
deriving DecidableEq, Repr

/-- `HashMap::insert` on the association-list model: replaces the binding of
the key if present, else appends. -/
def assocInsert (l : List (Seam × SeamProgress)) (k : Seam) (v : SeamProgress) :
    List (Seam × SeamProgress) :=
  match l with
  | [] => [(k, v)]
  | (k', v') :: rest => if k' == k then (k, v) :: rest else (k', v') :: assocInsert rest k v

/-- `SeamProcessor::set_filter` (src/seam_processor.rs 323-328). -/
def SeamProcessor.set_filter (p : SeamProcessor) (filter : PointFilter) : SeamProcessor :=
  { p with filter := filter, focused_seam := none, progress := [], queue := [] }

/-- `SeamProcessor::filter` (src/seam_processor.rs 319-321). -/
def SeamProcessor.filterOf (p : SeamProcessor) : PointFilter := p.filter

/-- One iteration of the receive loop of `SeamProcessor::update`
(src/seam_processor.rs 238-254) on one received message; `none` models the
`panic` on an unfocused Points output. -/
def SeamProcessor.updateRecvOne (p : SeamProcessor) (msg : SeamRequest × SeamOutput) :
    Option SeamProcessor :=
  let request := msg.1
  let progress := msg.2
  if request.filter ≠ p.filter then some p
  else if request.is_focused then
    match p.focused_seam with
    | some (focused_request, _) =>
      if SeamRequest.beqR focused_request request then
        some { p with focused_seam := some (request, progress) }
      else some p
    | none => some p
  else
    match progress with
    | SeamOutput.Segments prog => some { p with progress := assocInsert p.progress request.seam prog }
    | SeamOutput.Points _ => none

/-- `SeamProcessor::focused_seam_progress` (src/seam_processor.rs 257-299);
returns the snapshot the source returns together with the updated state. -/
def SeamProcessor.focused_seam_progress (p : SeamProcessor) (seam : Seam)
    (w_range : RangeF32) (segment_length : F32) : SeamOutput × SeamProcessor :=
  let request : SeamRequest := ⟨seam, w_range, segment_length, true, p.filter⟩
  let progress0 := SeamOutput.Segments (SeamProgress.new w_range segment_length)
  match p.focused_seam with
  | some (focused_request, focused_progress) =>
    let progress := if focused_request.seam == seam then focused_progress else progress0
    if SeamRequest.beqR focused_request request then (progress, p)
    else (progress, { p with focused_seam := some (request, progress), queue := [request] })
  | none =>
    (progress0, { p with focused_seam := some (request, progress0), queue := [request] })

/-- How `take_next_segment` computes the end of the next segment from the
current sweep position x, the segment length L and the range end: advance by
max(L, one representable step), clip to the range end, and never cross the
dead-zone boundary -1 from the left. -/
def SplitSpec (x L endv split : F32) : Prop :=
  split =
    (if (x.lt F32.negOne && F32.negOne.lt (f32_min (f32_max (x.add L) (next_f32 x)) endv)) = true
      then F32.negOne
      else f32_min (f32_max (x.add L) (next_f32 x)) endv)

/-- The list of ranges tiles [a, b): the first starts at a, each subsequent
one starts where its predecessor ends, the last ends at b (all endpoint
equalities structural). -/
def chainCovers : F32 → List RangeF32 → F32 → Prop
  | a, [], b => a = b
  | a, seg :: rest, b => seg.start = a ∧ chainCovers seg.«end» rest b

/-- The run list tiles [a, b) in order with nonempty runs, no run Unchecked,
and no two adjacent runs of equal status (minimal run-length encoding). -/
def RunsChain : F32 → List (RangeF32 × RangeStatus) → F32 → Prop
  | a, [], b => a = b
  | a, (seg, st) :: rest, b =>
    seg.start = a ∧ seg.is_empty = false ∧ st ≠ RangeStatus.Unchecked ∧
      (∀ x, rest.head? = some x → x.2 ≠ st) ∧
      RunsChain seg.«end» rest b

/-- w lies in the dead zone [-1, 1) (IEEE comparisons). -/
def inBand (w : F32) : Prop := w.ge F32.negOne = true ∧ w.lt F32.one = true

/-- w lies in the half-open range r (IEEE comparisons). -/
def inRange (w : F32) (r : RangeF32) : Prop :=
  r.start.le w = true ∧ w.lt r.«end» = true

/-- A fixture edge used by the concrete witnesses and counterexamples below. -/
def testEdge : Edge := ⟨ProjectionAxis.X, WallOrientation.Positive, ⟨0, 0⟩, ⟨0, 100⟩⟩

/-- A fixture seam used by the concrete witnesses and counterexamples below. -/
def testSeam : Seam := ⟨testEdge, testEdge⟩

/- ######################## Theorems ######################## -/

theorem bitLen_of_zero (fuel : Nat) : bitLen fuel 0 = 0 := by
  cases fuel <;> simp [bitLen]

theorem bitLen_spec : ∀ (fuel n : Nat), n < 2 ^ fuel → n ≠ 0 →
    2 ^ (bitLen fuel n - 1) ≤ n ∧ n < 2 ^ bitLen fuel n := by
  intro fuel
  induction fuel with
  | zero => intro n hn h0; simp at hn; omega
  | succ f ih =>
    intro n hn h0
    have hstep : bitLen (f + 1) n = bitLen f (n / 2) + 1 := by
      simp [bitLen, h0]
    by_cases hh : n / 2 = 0
    · have hn1 : n = 1 := by omega
      subst hn1
      simp [hstep, hh, bitLen_of_zero]
    · have hlt : n / 2 < 2 ^ f := by
        have := Nat.pow_succ 2 f
        omega
      obtain ⟨h1, h2⟩ := ih (n / 2) hlt hh
      have hL : 1 ≤ bitLen f (n / 2) := by
        by_contra hc
        have : bitLen f (n / 2) = 0 := by omega
        rw [this] at h2
        simp at h2
        omega
      constructor
      · have : 2 ^ (bitLen f (n / 2)) ≤ 2 * (n / 2) := by
          calc 2 ^ (bitLen f (n / 2)) = 2 * 2 ^ (bitLen f (n / 2) - 1) := by
                rw [← Nat.pow_succ']
                congr 1
                omega
            _ ≤ 2 * (n / 2) := by omega
        rw [hstep]
        simp only [Nat.add_sub_cancel]
        omega
      · rw [hstep]
        have : n < 2 * 2 ^ (bitLen f (n / 2)) := by omega
        calc n < 2 * 2 ^ (bitLen f (n / 2)) := this
          _ = 2 ^ (bitLen f (n / 2) + 1) := (Nat.pow_succ' ..).symm

theorem F32.magLT_iff (e1 e2 : Int) (m1 m2 : Nat) :
    F32.magLT e1 m1 e2 m2 = true ↔ (m1 : ℚ) * (2 : ℚ) ^ e1 < (m2 : ℚ) * (2 : ℚ) ^ e2 := by
  unfold F32.magLT
  simp only [decide_eq_true_eq]
  have h2 : (0 : ℚ) < (2 : ℚ) ^ (min e1 e2) := zpow_pos (by norm_num) _
  have key : ∀ e : Int, ∀ m : Nat, min e1 e2 ≤ e →
      ((m * 2 ^ (e - min e1 e2).toNat : Nat) : ℚ) * (2 : ℚ) ^ (min e1 e2) =
        (m : ℚ) * (2 : ℚ) ^ e := by
    intro e m he
    push_cast
    rw [mul_assoc, ← zpow_natCast (2 : ℚ) (e - min e1 e2).toNat,
      ← zpow_add₀ (by norm_num : (2 : ℚ) ≠ 0)]
    congr 2
    omega
  constructor
  · intro h
    have := (mul_lt_mul_right h2).mpr ((Nat.cast_lt (α := ℚ)).mpr h)
    rwa [key e1 m1 (min_le_left ..), key e2 m2 (min_le_right ..)] at this
  · intro h
    have h' : ((m1 * 2 ^ (e1 - min e1 e2).toNat : Nat) : ℚ) * (2 : ℚ) ^ (min e1 e2) <
        ((m2 * 2 ^ (e2 - min e1 e2).toNat : Nat) : ℚ) * (2 : ℚ) ^ (min e1 e2) := by
      rw [key e1 m1 (min_le_left ..), key e2 m2 (min_le_right ..)]; exact h
    exact_mod_cast (mul_lt_mul_right h2).mp h'

theorem F32.magEQ_iff (e1 e2 : Int) (m1 m2 : Nat) :
    F32.magEQ e1 m1 e2 m2 = true ↔ (m1 : ℚ) * (2 : ℚ) ^ e1 = (m2 : ℚ) * (2 : ℚ) ^ e2 := by
  unfold F32.magEQ
  simp only [decide_eq_true_eq]
  have h2 : ((2 : ℚ) ^ (min e1 e2)) ≠ 0 := (zpow_pos (by norm_num) _).ne'
  have key : ∀ e : Int, ∀ m : Nat, min e1 e2 ≤ e →
      ((m * 2 ^ (e - min e1 e2).toNat : Nat) : ℚ) * (2 : ℚ) ^ (min e1 e2) =
        (m : ℚ) * (2 : ℚ) ^ e := by
    intro e m he
    push_cast
    rw [mul_assoc, ← zpow_natCast (2 : ℚ) (e - min e1 e2).toNat,
      ← zpow_add₀ (by norm_num : (2 : ℚ) ≠ 0)]
    congr 2
    omega
  constructor
  · intro h
    have : ((m1 * 2 ^ (e1 - min e1 e2).toNat : Nat) : ℚ) * (2 : ℚ) ^ (min e1 e2) =
        ((m2 * 2 ^ (e2 - min e1 e2).toNat : Nat) : ℚ) * (2 : ℚ) ^ (min e1 e2) := by
      exact_mod_cast congrArg (fun t : ℚ => t * (2 : ℚ) ^ (min e1 e2)) (by exact_mod_cast h)
    rwa [key e1 m1 (min_le_left ..), key e2 m2 (min_le_right ..)] at this
  · intro h
    have : ((m1 * 2 ^ (e1 - min e1 e2).toNat : Nat) : ℚ) * (2 : ℚ) ^ (min e1 e2) =
        ((m2 * 2 ^ (e2 - min e1 e2).toNat : Nat) : ℚ) * (2 : ℚ) ^ (min e1 e2) := by
      rw [key e1 m1 (min_le_left ..), key e2 m2 (min_le_right ..)]; exact h
    have := mul_right_cancel₀ h2 this
    exact_mod_cast this

theorem F32.magQ_nonneg (e : Int) (m : Nat) : (0 : ℚ) ≤ (m : ℚ) * (2 : ℚ) ^ e := by
  positivity

theorem F32.magQ_eq_zero_iff (e : Int) (m : Nat) : (m : ℚ) * (2 : ℚ) ^ e = 0 ↔ m = 0 := by
  have h2 : ((2 : ℚ) ^ e) ≠ 0 := (zpow_pos (by norm_num) _).ne'
  constructor
  · intro h
    rcases mul_eq_zero.mp h with h' | h' <;> simp_all
  · intro h
    simp [h]

theorem F32.magQ_pos_iff (e : Int) (m : Nat) : (0 : ℚ) < (m : ℚ) * (2 : ℚ) ^ e ↔ 0 < m := by
  rcases Nat.eq_zero_or_pos m with h | h
  · simp [h]
  · have h0 := F32.magQ_nonneg e m
    have hne : (m : ℚ) * (2 : ℚ) ^ e ≠ 0 := fun hc => by
      have := (F32.magQ_eq_zero_iff e m).mp hc
      omega
    constructor
    · intro _; exact h
    · intro _
      exact lt_of_le_of_ne h0 (Ne.symm hne)

theorem F32.valQ_fin (s : Bool) (e : Int) (m : Nat) :
    (F32.fin s e m).valQ = if s then -((m : ℚ) * (2 : ℚ) ^ e) else (m : ℚ) * (2 : ℚ) ^ e := by
  cases s <;> simp [F32.valQ]

theorem F32.lt_fin_iff (s1 s2 : Bool) (e1 e2 : Int) (m1 m2 : Nat) :
    (F32.fin s1 e1 m1).lt (F32.fin s2 e2 m2) = true ↔
      (F32.fin s1 e1 m1).valQ < (F32.fin s2 e2 m2).valQ := by
  rw [F32.valQ_fin, F32.valQ_fin]
  cases s1 <;> cases s2 <;>
    simp only [F32.lt, F32.finLt, reduceIte, Bool.false_eq_true, if_false, if_true]
  · exact F32.magLT_iff e1 e2 m1 m2
  · rw [false_iff]
    intro h
    have h1 := F32.magQ_nonneg e1 m1
    have h2 := F32.magQ_nonneg e2 m2
    linarith
  · have hb : (!(m1 == 0 && m2 == 0)) = true ↔ ¬(m1 = 0 ∧ m2 = 0) := by
      simp [Bool.and_eq_true]
      tauto
    rw [hb]
    constructor
    · intro h
      rcases Nat.eq_zero_or_pos m1 with h1 | h1 <;> rcases Nat.eq_zero_or_pos m2 with h2 | h2
      · exact absurd ⟨h1, h2⟩ h
      · have hp := (F32.magQ_pos_iff e2 m2).mpr h2
        have hn := F32.magQ_nonneg e1 m1
        linarith
      · have hp := (F32.magQ_pos_iff e1 m1).mpr h1
        have hn := F32.magQ_nonneg e2 m2
        linarith
      · have hp := (F32.magQ_pos_iff e1 m1).mpr h1
        have hn := F32.magQ_nonneg e2 m2
        linarith
    · rintro h ⟨h1, h2⟩
      subst h1; subst h2
      norm_num at h
  · rw [F32.magLT_iff e2 e1 m2 m1]
    constructor <;> intro h <;> linarith

theorem F32.beq_fin_iff (s1 s2 : Bool) (e1 e2 : Int) (m1 m2 : Nat) :
    (F32.fin s1 e1 m1).beq (F32.fin s2 e2 m2) = true ↔
      (F32.fin s1 e1 m1).valQ = (F32.fin s2 e2 m2).valQ := by
  rw [F32.valQ_fin, F32.valQ_fin]
  have hz1 := F32.magQ_eq_zero_iff e1 m1
  have hz2 := F32.magQ_eq_zero_iff e2 m2
  have hn1 := F32.magQ_nonneg e1 m1
  have hn2 := F32.magQ_nonneg e2 m2
  cases s1 <;> cases s2 <;>
    simp only [F32.beq, Bool.or_eq_true, Bool.and_eq_true, beq_iff_eq, F32.magEQ_iff,
      reduceIte, Bool.false_eq_true, if_false, if_true]
  · constructor
    · rintro (⟨h1, h2⟩ | ⟨-, h⟩)
      · simp [h1, h2]
      · exact h
    · intro h
      exact Or.inr ⟨trivial, h⟩
  · constructor
    · rintro (⟨h1, h2⟩ | ⟨h, -⟩)
      · simp [h1, h2]
      · exact absurd h (by simp)
    · intro h
      have e1z : (m1 : ℚ) * (2 : ℚ) ^ e1 = 0 := by linarith
      have e2z : (m2 : ℚ) * (2 : ℚ) ^ e2 = 0 := by linarith
      exact Or.inl ⟨hz1.mp e1z, hz2.mp e2z⟩
  · constructor
    · rintro (⟨h1, h2⟩ | ⟨h, -⟩)
      · simp [h1, h2]
      · exact absurd h (by simp)
    · intro h
      have e1z : (m1 : ℚ) * (2 : ℚ) ^ e1 = 0 := by linarith
      have e2z : (m2 : ℚ) * (2 : ℚ) ^ e2 = 0 := by linarith
      exact Or.inl ⟨hz1.mp e1z, hz2.mp e2z⟩
  · constructor
    · rintro (⟨h1, h2⟩ | ⟨-, h⟩)
      · simp [h1, h2]
      · linarith
    · intro h
      exact Or.inr ⟨trivial, by linarith⟩

theorem F32.canon_fin_bounds (s : Bool) (e : Int) (m : Nat)
    (h : F32.IsCanon (F32.fin s e m)) : m < 2 ^ 24 ∧ -149 ≤ e ∧ e ≤ 104 := by
  simp only [F32.IsCanon] at h
  rcases h with ⟨h1, h2⟩ | ⟨h1, h2, h3, h4⟩ <;> exact ⟨by omega, by omega, by omega⟩

theorem F32.magQ_lt_big (e : Int) (m : Nat) (he : e ≤ 104) (hm : m < 2 ^ 24) :
    (m : ℚ) * (2 : ℚ) ^ e < (2 : ℚ) ^ (200 : ℕ) := by
  have hp : (0 : ℚ) < (2 : ℚ) ^ (104 : ℤ) := zpow_pos (by norm_num) _
  have h1 : (2 : ℚ) ^ e ≤ (2 : ℚ) ^ (104 : ℤ) := by
    exact zpow_le_zpow_right₀ (by norm_num) he
  have h2 : (m : ℚ) * (2 : ℚ) ^ e ≤ (m : ℚ) * (2 : ℚ) ^ (104 : ℤ) := by
    have : (0 : ℚ) ≤ (m : ℚ) := by positivity
    exact mul_le_mul_of_nonneg_left h1 this
  have h3 : (m : ℚ) < ((2 : ℚ) ^ (24 : ℕ)) := by
    exact_mod_cast hm
  have h4 : (m : ℚ) * (2 : ℚ) ^ (104 : ℤ) < (2 : ℚ) ^ (24 : ℕ) * (2 : ℚ) ^ (104 : ℤ) :=
    mul_lt_mul_of_pos_right h3 hp
  have h5 : (2 : ℚ) ^ (24 : ℕ) * (2 : ℚ) ^ (104 : ℤ) = (2 : ℚ) ^ (128 : ℕ) := by
    rw [← zpow_natCast (2 : ℚ) 24, ← zpow_natCast (2 : ℚ) 128,
      ← zpow_add₀ (by norm_num : (2 : ℚ) ≠ 0)]
    norm_num
  have h6 : (2 : ℚ) ^ (128 : ℕ) < (2 : ℚ) ^ (200 : ℕ) := by
    exact pow_lt_pow_right₀ (by norm_num) (by norm_num)
  calc (m : ℚ) * (2 : ℚ) ^ e ≤ (m : ℚ) * (2 : ℚ) ^ (104 : ℤ) := h2
    _ < (2 : ℚ) ^ (24 : ℕ) * (2 : ℚ) ^ (104 : ℤ) := h4
    _ = (2 : ℚ) ^ (128 : ℕ) := h5
    _ < (2 : ℚ) ^ (200 : ℕ) := h6

theorem F32.valQ_fin_big (s : Bool) (e : Int) (m : Nat)
    (h : F32.IsCanon (F32.fin s e m)) :
    -((2 : ℚ) ^ (200 : ℕ)) < (F32.fin s e m).valQ ∧ (F32.fin s e m).valQ < (2 : ℚ) ^ (200 : ℕ) := by
  obtain ⟨hm, -, he⟩ := F32.canon_fin_bounds s e m h
  have hb := F32.magQ_lt_big e m he hm
  have hn := F32.magQ_nonneg e m
  rw [F32.valQ_fin]
  cases s <;> simp only [reduceIte, Bool.false_eq_true, if_false, if_true] <;> constructor <;>
    linarith

theorem F32.lt_iff (a b : F32) (ha : a ≠ F32.nan) (hb : b ≠ F32.nan)
    (hca : a.IsCanon) (hcb : b.IsCanon) : a.lt b = true ↔ a.valQ < b.valQ := by
  cases a with
  | nan => exact absurd rfl ha
  | inf s1 =>
    cases b with
    | nan => exact absurd rfl hb
    | inf s2 =>
      cases s1 <;> cases s2 <;> simp [F32.lt, F32.valQ]
    | fin s2 e2 m2 =>
      obtain ⟨hlo, hhi⟩ := F32.valQ_fin_big s2 e2 m2 hcb
      simp only [F32.valQ] at hlo hhi
      cases s1 <;> simp only [F32.lt, F32.valQ, reduceIte, Bool.false_eq_true, if_false, if_true]
      · simp only [Bool.false_eq_true, false_iff, not_lt]
        linarith
      · simp only [true_iff]
        linarith
  | fin s1 e1 m1 =>
    cases b with
    | nan => exact absurd rfl hb
    | inf s2 =>
      obtain ⟨hlo, hhi⟩ := F32.valQ_fin_big s1 e1 m1 hca
      simp only [F32.valQ] at hlo hhi
      cases s2 <;> simp only [F32.lt, F32.valQ, reduceIte, Bool.false_eq_true, if_false, if_true,
        Bool.not_true, Bool.not_false]
      · simp only [true_iff]
        linarith
      · simp only [Bool.false_eq_true, false_iff, not_lt]
        linarith
    | fin s2 e2 m2 => exact F32.lt_fin_iff s1 s2 e1 e2 m1 m2

theorem F32.beq_iff (a b : F32) (ha : a ≠ F32.nan) (hb : b ≠ F32.nan)
    (hca : a.IsCanon) (hcb : b.IsCanon) : a.beq b = true ↔ a.valQ = b.valQ := by
  cases a with
  | nan => exact absurd rfl ha
  | inf s1 =>
    cases b with
    | nan => exact absurd rfl hb
    | inf s2 =>
      cases s1 <;> cases s2 <;> simp [F32.beq, F32.valQ] <;> norm_num
    | fin s2 e2 m2 =>
      obtain ⟨hlo, hhi⟩ := F32.valQ_fin_big s2 e2 m2 hcb
      simp only [F32.valQ] at hlo hhi
      cases s1 <;> simp only [F32.beq, F32.valQ, reduceIte, Bool.false_eq_true, if_false, if_true,
        false_iff] <;> intro hc <;> linarith
  | fin s1 e1 m1 =>
    cases b with
    | nan => exact absurd rfl hb
    | inf s2 =>
      obtain ⟨hlo, hhi⟩ := F32.valQ_fin_big s1 e1 m1 hca
      simp only [F32.valQ] at hlo hhi
      cases s2 <;> simp only [F32.beq, F32.valQ, reduceIte, Bool.false_eq_true, if_false, if_true,
        false_iff] <;> intro hc <;> linarith
    | fin s2 e2 m2 => exact F32.beq_fin_iff s1 s2 e1 e2 m1 m2

theorem F32.le_iff (a b : F32) (ha : a ≠ F32.nan) (hb : b ≠ F32.nan)
    (hca : a.IsCanon) (hcb : b.IsCanon) : a.le b = true ↔ a.valQ ≤ b.valQ := by
  unfold F32.le
  rw [Bool.or_eq_true, F32.lt_iff a b ha hb hca hcb, F32.beq_iff a b ha hb hca hcb]
  exact (le_iff_lt_or_eq (α := ℚ)).symm

theorem F32.ordPos_nonneg (e : Int) (m : Nat) (h : F32.IsCanon (F32.fin false e m)) :
    0 ≤ F32.ordPos e m := by
  obtain ⟨-, he, -⟩ := F32.canon_fin_bounds false e m h
  unfold F32.ordPos
  have : (0 : Int) ≤ (e + 149) * 2 ^ 23 := mul_nonneg (by omega) (by positivity)
  omega

theorem F32.ordPos_lt_top (e : Int) (m : Nat) (h : F32.IsCanon (F32.fin false e m)) :
    F32.ordPos e m < (104 + 149) * 2 ^ 23 + 2 ^ 24 := by
  obtain ⟨hm, -, he⟩ := F32.canon_fin_bounds false e m h
  unfold F32.ordPos
  have : (e + 149) * 2 ^ 23 ≤ (104 + 149) * 2 ^ 23 := by
    have h23 : (0 : Int) < 2 ^ 23 := by positivity
    exact mul_le_mul_of_nonneg_right (by omega) (by omega)
  have hm' : (m : Int) < 2 ^ 24 := by exact_mod_cast hm
  omega

theorem F32.ordPos_eq_zero_iff (e : Int) (m : Nat) (h : F32.IsCanon (F32.fin false e m)) :
    F32.ordPos e m = 0 ↔ m = 0 := by
  simp only [F32.IsCanon] at h
  unfold F32.ordPos
  constructor
  · intro h0
    rcases h with ⟨h1, h2⟩ | ⟨h1, h2, h3, h4⟩
    · subst h1; omega
    · exfalso
      have he : (0 : Int) ≤ (e + 149) * 2 ^ 23 := mul_nonneg (by omega) (by positivity)
      omega
  · intro h0
    subst h0
    rcases h with ⟨h1, h2⟩ | ⟨h1, h2, h3, h4⟩
    · subst h1; omega
    · omega

theorem F32.ordPos_lt_of_exp_lt (e1 e2 : Int) (m1 m2 : Nat)
    (h1 : F32.IsCanon (F32.fin false e1 m1)) (h2 : F32.IsCanon (F32.fin false e2 m2))
    (he : e1 < e2) :
    F32.ordPos e1 m1 < F32.ordPos e2 m2 ∧
      (m1 : ℚ) * (2 : ℚ) ^ e1 < (m2 : ℚ) * (2 : ℚ) ^ e2 := by
  obtain ⟨hm1, he1, he1'⟩ := F32.canon_fin_bounds false e1 m1 h1
  have hm2 : 2 ^ 23 ≤ m2 := by
    simp only [F32.IsCanon] at h2
    rcases h2 with ⟨hq, -⟩ | ⟨-, -, hq, -⟩
    · omega
    · exact hq
  constructor
  · unfold F32.ordPos
    have hstep : (e1 + 149 + 1) * 2 ^ 23 ≤ (e2 + 149) * 2 ^ 23 := by
      have h23 : (0 : Int) < 2 ^ 23 := by positivity
      exact mul_le_mul_of_nonneg_right (by omega) (by omega)
    have hm1' : (m1 : Int) < 2 ^ 24 := by exact_mod_cast hm1
    have hm2' : (2 ^ 23 : Int) ≤ (m2 : Int) := by exact_mod_cast hm2
    have hexp : (e1 + 149 + 1) * 2 ^ 23 = (e1 + 149) * 2 ^ 23 + 2 ^ 23 := by ring
    omega
  · have c1 : (m1 : ℚ) * (2 : ℚ) ^ e1 < (2 : ℚ) ^ (24 : ℤ) * (2 : ℚ) ^ e1 := by
      have hp : (0 : ℚ) < (2 : ℚ) ^ e1 := zpow_pos (by norm_num) _
      have : (m1 : ℚ) < (2 : ℚ) ^ (24 : ℤ) := by exact_mod_cast hm1
      exact mul_lt_mul_of_pos_right this hp
    have c2 : (2 : ℚ) ^ (24 : ℤ) * (2 : ℚ) ^ e1 ≤ (2 : ℚ) ^ (23 : ℤ) * (2 : ℚ) ^ e2 := by
      rw [← zpow_add₀ (by norm_num : (2 : ℚ) ≠ 0), ← zpow_add₀ (by norm_num : (2 : ℚ) ≠ 0)]
      exact zpow_le_zpow_right₀ (by norm_num) (by omega)
    have c3 : (2 : ℚ) ^ (23 : ℤ) * (2 : ℚ) ^ e2 ≤ (m2 : ℚ) * (2 : ℚ) ^ e2 := by
      have hp : (0 : ℚ) < (2 : ℚ) ^ e2 := zpow_pos (by norm_num) _
      have : (2 : ℚ) ^ (23 : ℤ) ≤ (m2 : ℚ) := by exact_mod_cast hm2
      exact mul_le_mul_of_nonneg_right this (le_of_lt hp)
    linarith

theorem F32.ordPos_lt_iff (e1 e2 : Int) (m1 m2 : Nat)
    (h1 : F32.IsCanon (F32.fin false e1 m1)) (h2 : F32.IsCanon (F32.fin false e2 m2)) :
    F32.ordPos e1 m1 < F32.ordPos e2 m2 ↔ (m1 : ℚ) * (2 : ℚ) ^ e1 < (m2 : ℚ) * (2 : ℚ) ^ e2 := by
  rcases lt_trichotomy e1 e2 with he | he | he
  · obtain ⟨o, v⟩ := F32.ordPos_lt_of_exp_lt e1 e2 m1 m2 h1 h2 he
    exact iff_of_true o v
  · subst he
    unfold F32.ordPos
    have hp : (0 : ℚ) < (2 : ℚ) ^ e1 := zpow_pos (by norm_num) _
    constructor
    · intro h
      have : m1 < m2 := by omega
      exact mul_lt_mul_of_pos_right (by exact_mod_cast this) hp
    · intro h
      have : (m1 : ℚ) < (m2 : ℚ) := lt_of_mul_lt_mul_right (by linarith) (le_of_lt hp)
      have : m1 < m2 := by exact_mod_cast this
      omega
  · obtain ⟨o, v⟩ := F32.ordPos_lt_of_exp_lt e2 e1 m2 m1 h2 h1 he
    constructor
    · intro h; omega
    · intro h; linarith

theorem F32.canon_sign (s s' : Bool) (e : Int) (m : Nat)
    (h : F32.IsCanon (F32.fin s e m)) : F32.IsCanon (F32.fin s' e m) := by
  simpa only [F32.IsCanon] using h

theorem F32.ord_lt_iff (a b : F32) (ha : a ≠ F32.nan) (hb : b ≠ F32.nan)
    (hca : a.IsCanon) (hcb : b.IsCanon) : a.lt b = true ↔ a.ord < b.ord := by
  cases a with
  | nan => exact absurd rfl ha
  | inf s1 =>
    cases b with
    | nan => exact absurd rfl hb
    | inf s2 =>
      cases s1 <;> cases s2 <;> simp [F32.lt, F32.ord]
    | fin s2 e2 m2 =>
      have hp0 := F32.ordPos_nonneg e2 m2 (F32.canon_sign s2 false e2 m2 hcb)
      have hpt := F32.ordPos_lt_top e2 m2 (F32.canon_sign s2 false e2 m2 hcb)
      cases s1 <;> cases s2 <;>
        simp only [F32.lt, F32.ord, Bool.false_eq_true, false_iff, true_iff, not_lt] <;> omega
  | fin s1 e1 m1 =>
    cases b with
    | nan => exact absurd rfl hb
    | inf s2 =>
      have hp0 := F32.ordPos_nonneg e1 m1 (F32.canon_sign s1 false e1 m1 hca)
      have hpt := F32.ordPos_lt_top e1 m1 (F32.canon_sign s1 false e1 m1 hca)
      cases s1 <;> cases s2 <;>
        simp only [F32.lt, F32.ord, Bool.not_true, Bool.not_false, Bool.false_eq_true,
          false_iff, true_iff, not_lt] <;> omega
    | fin s2 e2 m2 =>
      have hc1 := F32.canon_sign s1 false e1 m1 hca
      have hc2 := F32.canon_sign s2 false e2 m2 hcb
      have hp1 := F32.ordPos_nonneg e1 m1 hc1
      have hp2 := F32.ordPos_nonneg e2 m2 hc2
      have hz1 := F32.ordPos_eq_zero_iff e1 m1 hc1
      have hz2 := F32.ordPos_eq_zero_iff e2 m2 hc2
      have hiff := F32.ordPos_lt_iff e1 e2 m1 m2 hc1 hc2
      have hiff' := F32.ordPos_lt_iff e2 e1 m2 m1 hc2 hc1
      cases s1 <;> cases s2 <;>
        simp only [F32.lt, F32.finLt, F32.ord]
      · rw [F32.magLT_iff, ← hiff]
      · simp only [Bool.false_eq_true, false_iff, not_lt]
        omega
      · have hb : (!(m1 == 0 && m2 == 0)) = true ↔ ¬(m1 = 0 ∧ m2 = 0) := by
          simp [Bool.and_eq_true]
          tauto
        rw [hb]
        constructor
        · intro h
          rcases Nat.eq_zero_or_pos m1 with h1 | h1
          · have : ¬ m2 = 0 := fun hc => h ⟨h1, hc⟩
            have : F32.ordPos e2 m2 ≠ 0 := fun hc => this (hz2.mp hc)
            omega
          · have : F32.ordPos e1 m1 ≠ 0 := fun hc => by
              have := hz1.mp hc
              omega
            omega
        · rintro h ⟨h1, h2⟩
          rw [hz1.mpr h1, hz2.mpr h2] at h
          omega
      · rw [F32.magLT_iff, ← hiff']
        omega

theorem F32.le_iff_ord (a b : F32) (ha : a ≠ F32.nan) (hb : b ≠ F32.nan)
    (hca : a.IsCanon) (hcb : b.IsCanon) : a.le b = true ↔ a.ord ≤ b.ord := by
  have h1 := F32.ord_lt_iff b a hb ha hcb hca
  have h2 := F32.lt_iff b a hb ha hcb hca
  rw [F32.le_iff a b ha hb hca hcb]
  constructor
  · intro h
    by_contra hc
    have hlt : b.ord < a.ord := by omega
    have := h2.mp (h1.mpr hlt)
    linarith
  · intro h
    by_contra hc
    push_neg at hc
    have := h1.mp (h2.mpr hc)
    omega

theorem F32.next_ne_nan (a : F32) (h : a ≠ F32.nan) : next_f32 a ≠ F32.nan := by
  cases a with
  | nan => exact absurd rfl h
  | inf s => cases s <;> simp [next_f32]
  | fin s e m =>
    cases s <;> simp only [next_f32] <;> split_ifs <;> simp

theorem F32.next_canon (a : F32) (h : a.IsCanon) : (next_f32 a).IsCanon := by
  cases a with
  | nan => trivial
  | inf s => cases s <;> simp [next_f32, F32.IsCanon]
  | fin s e m =>
    simp only [F32.IsCanon] at h
    cases s <;> simp only [next_f32] <;> split_ifs <;>
      simp only [F32.IsCanon] <;> first | trivial | omega

theorem F32.ord_next (a : F32) (h : a.IsCanon) (hn : a ≠ F32.nan)
    (hi : a ≠ F32.inf false) : (next_f32 a).ord = a.ord + 1 := by
  cases a with
  | nan => exact absurd rfl hn
  | inf s =>
    cases s
    · exact absurd rfl hi
    · simp only [next_f32, F32.ord, F32.ordPos]
      norm_num
  | fin s e m =>
    simp only [F32.IsCanon] at h
    have h23 : (2 : Nat) ^ 23 = 8388608 := by norm_num
    have h24 : (2 : Nat) ^ 24 = 16777216 := by norm_num
    rw [h23, h24] at h
    cases s <;> simp only [next_f32] <;> split_ifs <;>
      simp only [F32.ord, F32.ordPos] <;> push_cast <;> norm_num <;> omega

theorem F32.roundSticky_canon (s : Bool) (m : Nat) (e : Int) (sticky : Bool)
    (hm : m < 2 ^ 380) : (F32.roundSticky s m e sticky).IsCanon := by
  have hm400 : m < 2 ^ 400 := lt_of_lt_of_le hm (by norm_num)
  unfold F32.roundSticky
  rcases Nat.eq_zero_or_pos m with h0 | h0
  · subst h0
    simp [F32.IsCanon]
  have h0' : m ≠ 0 := by omega
  obtain ⟨hlo, hhi⟩ := bitLen_spec 400 m hm400 h0'
  simp only [if_neg h0']
  set Ln := bitLen 400 m with hLn
  have hL1 : 1 ≤ Ln := by
    by_contra hc
    have hz : Ln = 0 := by omega
    rw [hz] at hhi
    simp at hhi
    omega
  set E : Int := (e + (Ln : Int) - 24) ⊔ (-149) with hE
  have hE149 : -149 ≤ E := le_max_right _ _
  by_cases hsh : E - e ≤ 0
  · rw [if_pos hsh]
    by_cases hEb : E > 104
    · rw [if_pos hEb]
      trivial
    · rw [if_neg hEb]
      by_cases hcase : -149 ≤ e + (Ln : Int) - 24
      · have hEeq : E = e + (Ln : Int) - 24 := max_eq_left hcase
        have hLle : Ln ≤ 24 := by omega
        have htn : (-(E - e)).toNat = 24 - Ln := by omega
        rw [htn]
        have hMlo : 2 ^ 23 ≤ m * 2 ^ (24 - Ln) := by
          calc 2 ^ 23 = 2 ^ (Ln - 1) * 2 ^ (24 - Ln) := by
                rw [← pow_add]
                congr 1
                omega
            _ ≤ m * 2 ^ (24 - Ln) := Nat.mul_le_mul_right _ hlo
        have hMhi : m * 2 ^ (24 - Ln) < 2 ^ 24 := by
          calc m * 2 ^ (24 - Ln) < 2 ^ Ln * 2 ^ (24 - Ln) :=
                (Nat.mul_lt_mul_right (Nat.pos_pow_of_pos _ (by norm_num))).mpr hhi
            _ = 2 ^ 24 := by
                rw [← pow_add]
                congr 1
                omega
        right
        exact ⟨hE149, by omega, hMlo, hMhi⟩
      · have hEeq : E = -149 := max_eq_right (by omega)
        have hen : -149 ≤ e := by omega
        have htn : (-(E - e)).toNat = (e + 149).toNat := by omega
        rw [htn]
        have hMhi : m * 2 ^ (e + 149).toNat < 2 ^ 23 := by
          calc m * 2 ^ (e + 149).toNat < 2 ^ Ln * 2 ^ (e + 149).toNat :=
                (Nat.mul_lt_mul_right (Nat.pos_pow_of_pos _ (by norm_num))).mpr hhi
            _ = 2 ^ (Ln + (e + 149).toNat) := by rw [← pow_add]
            _ ≤ 2 ^ 23 := Nat.pow_le_pow_right (by norm_num) (by omega)
        left
        exact ⟨hEeq, hMhi⟩
  · rw [if_neg hsh]
    set t := (E - e).toNat with ht
    set q := m / 2 ^ t with hq
    set up := decide (2 * (m % 2 ^ t) + (if sticky then 1 else 0) > 2 ^ t) ||
      (decide (2 * (m % 2 ^ t) + (if sticky then 1 else 0) = 2 ^ t) && decide (q % 2 = 1))
      with hup
    have htpos : 0 < t := by omega
    have hqM : q + (if up then 1 else 0) ≤ q + 1 := by
      split_ifs <;> omega
    by_cases hcase : -149 ≤ e + (Ln : Int) - 24
    · have hEeq : E = e + (Ln : Int) - 24 := max_eq_left hcase
      have hLgt : 24 < Ln := by omega
      have htn : t = Ln - 24 := by omega
      have hqlo : 2 ^ 23 ≤ q := by
        rw [hq, Nat.le_div_iff_mul_le (Nat.pos_pow_of_pos _ (by norm_num))]
        calc 2 ^ 23 * 2 ^ t = 2 ^ (23 + t) := by rw [← pow_add]
          _ = 2 ^ (Ln - 1) := by congr 1; omega
          _ ≤ m := hlo
      have hqhi : q < 2 ^ 24 := by
        rw [hq, Nat.div_lt_iff_lt_mul (Nat.pos_pow_of_pos _ (by norm_num))]
        calc m < 2 ^ Ln := hhi
          _ = 2 ^ 24 * 2 ^ t := by rw [← pow_add]; congr 1; omega
      by_cases hM24 : q + (if up then 1 else 0) = 2 ^ 24
      · rw [if_pos hM24]
        by_cases hEb : E + 1 > 104
        · rw [if_pos hEb]; trivial
        · rw [if_neg hEb]
          right
          refine ⟨by omega, by omega, le_refl _, by norm_num⟩
      · rw [if_neg hM24]
        by_cases hEb : E > 104
        · rw [if_pos hEb]; trivial
        · rw [if_neg hEb]
          right
          refine ⟨hE149, by omega, by omega, by omega⟩
    · have hEeq : E = -149 := max_eq_right (by omega)
      have het : e < -149 := by omega
      have htn : (t : Int) = -149 - e := by omega
      have hqhi : q < 2 ^ 23 := by
        rw [hq, Nat.div_lt_iff_lt_mul (Nat.pos_pow_of_pos _ (by norm_num))]
        calc m < 2 ^ Ln := hhi
          _ ≤ 2 ^ 23 * 2 ^ t := by
              rw [← pow_add]
              exact Nat.pow_le_pow_right (by norm_num) (by omega)
      by_cases hM24 : q + (if up then 1 else 0) = 2 ^ 24
      · rw [if_pos hM24]
        by_cases hEb : E + 1 > 104
        · rw [if_pos hEb]; trivial
        · rw [if_neg hEb]
          right
          refine ⟨by omega, by omega, le_refl _, by norm_num⟩
      · rw [if_neg hM24]
        by_cases hEb : E > 104
        · rw [if_pos hEb]; trivial
        · rw [if_neg hEb]
          by_cases hM23 : q + (if up then 1 else 0) < 2 ^ 23
          · left
            exact ⟨hEeq, hM23⟩
          · right
            refine ⟨hE149, by omega, by omega, by omega⟩

theorem F32.sgnInt_natAbs (s : Bool) (m : Nat) : (F32.sgnInt s m).natAbs = m := by
  cases s <;> simp [F32.sgnInt]

theorem F32.add_canon (a b : F32) (hca : a.IsCanon) (hcb : b.IsCanon) :
    (F32.add a b).IsCanon := by
  cases a with
  | nan => cases b <;> simp [F32.add, F32.IsCanon]
  | inf s1 =>
    cases b with
    | nan => simp [F32.add, F32.IsCanon]
    | inf s2 => simp only [F32.add]; split_ifs <;> simp [F32.IsCanon]
    | fin s2 e2 m2 => simp [F32.add, F32.IsCanon]
  | fin s1 e1 m1 =>
    cases b with
    | nan => simp [F32.add, F32.IsCanon]
    | inf s2 => simp [F32.add, F32.IsCanon]
    | fin s2 e2 m2 =>
      obtain ⟨hm1, he1, he1'⟩ := F32.canon_fin_bounds s1 e1 m1 hca
      obtain ⟨hm2, he2, he2'⟩ := F32.canon_fin_bounds s2 e2 m2 hcb
      simp only [F32.add]
      split_ifs with hS hz
      · simp [F32.IsCanon]
      · simp [F32.IsCanon]
      · apply F32.roundSticky_canon
        have hdlo : -149 ≤ min e1 e2 := le_min he1 he2
        have hd1 : (e1 - min e1 e2).toNat ≤ 253 := by omega
        have hd2 : (e2 - min e1 e2).toNat ≤ 253 := by omega
        have h1 : (F32.sgnInt s1 m1 * 2 ^ (e1 - min e1 e2).toNat).natAbs =
            m1 * 2 ^ (e1 - min e1 e2).toNat := by
          rw [Int.natAbs_mul, F32.sgnInt_natAbs]
          congr 1
          rw [Int.natAbs_pow]
          rfl
        have h2 : (F32.sgnInt s2 m2 * 2 ^ (e2 - min e1 e2).toNat).natAbs =
            m2 * 2 ^ (e2 - min e1 e2).toNat := by
          rw [Int.natAbs_mul, F32.sgnInt_natAbs]
          congr 1
          rw [Int.natAbs_pow]
          rfl
        have hb1 : m1 * 2 ^ (e1 - min e1 e2).toNat ≤ 2 ^ 24 * 2 ^ 253 :=
          Nat.mul_le_mul (le_of_lt hm1) (Nat.pow_le_pow_right (by norm_num) hd1)
        have hb2 : m2 * 2 ^ (e2 - min e1 e2).toNat ≤ 2 ^ 24 * 2 ^ 253 :=
          Nat.mul_le_mul (le_of_lt hm2) (Nat.pow_le_pow_right (by norm_num) hd2)
        have hp : (2 : ℕ) ^ 24 * 2 ^ 253 = 2 ^ 277 := by rw [← pow_add]
        have hfin : (2 : ℕ) ^ 277 + 2 ^ 277 < 2 ^ 380 := by
          have : (2 : ℕ) ^ 277 + 2 ^ 277 = 2 ^ 278 := by
            rw [← two_mul, ← pow_succ']
          rw [this]
          exact Nat.pow_lt_pow_right (by norm_num) (by norm_num)
        calc (F32.sgnInt s1 m1 * 2 ^ (e1 - min e1 e2).toNat +
                F32.sgnInt s2 m2 * 2 ^ (e2 - min e1 e2).toNat).natAbs
            ≤ (F32.sgnInt s1 m1 * 2 ^ (e1 - min e1 e2).toNat).natAbs +
                (F32.sgnInt s2 m2 * 2 ^ (e2 - min e1 e2).toNat).natAbs :=
              Int.natAbs_add_le _ _
          _ ≤ 2 ^ 24 * 2 ^ 253 + 2 ^ 24 * 2 ^ 253 := by
              rw [h1, h2]
              omega
          _ < 2 ^ 380 := by rw [hp]; exact hfin

theorem F32.lt_nan_left (b : F32) : F32.nan.lt b = false := by
  cases b <;> rfl

theorem F32.lt_nan_right (a : F32) : a.lt F32.nan = false := by
  cases a <;> rfl

theorem F32.le_nan_left (b : F32) : F32.nan.le b = false := by
  cases b <;> rfl

theorem F32.le_nan_right (a : F32) : a.le F32.nan = false := by
  cases a <;> rfl

theorem F32.lt_ne_nan_left (a b : F32) (h : a.lt b = true) : a ≠ F32.nan := by
  intro hc
  subst hc
  rw [F32.lt_nan_left] at h
  exact Bool.false_ne_true h

theorem F32.lt_ne_nan_right (a b : F32) (h : a.lt b = true) : b ≠ F32.nan := by
  intro hc
  subst hc
  rw [F32.lt_nan_right] at h
  exact Bool.false_ne_true h

theorem F32.le_ne_nan_left (a b : F32) (h : a.le b = true) : a ≠ F32.nan := by
  intro hc
  subst hc
  rw [F32.le_nan_left] at h
  exact Bool.false_ne_true h

theorem F32.le_ne_nan_right (a b : F32) (h : a.le b = true) : b ≠ F32.nan := by
  intro hc
  subst hc
  rw [F32.le_nan_right] at h
  exact Bool.false_ne_true h

theorem F32.beq_refl (a : F32) (h : a ≠ F32.nan) : a.beq a = true := by
  cases a with
  | nan => exact absurd rfl h
  | inf s => simp [F32.beq]
  | fin s e m => simp [F32.beq, F32.magEQ]

theorem F32.le_refl' (a : F32) (h : a ≠ F32.nan) : a.le a = true := by
  unfold F32.le
  rw [F32.beq_refl a h]
  simp

theorem F32.le_of_lt' (a b : F32) (h : a.lt b = true) : a.le b = true := by
  unfold F32.le
  rw [h]
  simp

theorem F32.lt_irrefl' (a : F32) : a.lt a = false := by
  cases a with
  | nan => rfl
  | inf s => cases s <;> rfl
  | fin s e m =>
    by_contra hc
    have h : (F32.fin s e m).lt (F32.fin s e m) = true := by
      revert hc
      cases ((F32.fin s e m).lt (F32.fin s e m)) <;> simp
    rw [F32.lt_fin_iff] at h
    exact lt_irrefl _ h

theorem F32.lt_trans' (a b c : F32) (hab : a.lt b = true) (hbc : b.lt c = true) :
    a.lt c = true := by
  cases a with
  | nan => rw [F32.lt_nan_left] at hab; exact absurd hab Bool.false_ne_true
  | inf s1 =>
    cases c with
    | nan => rw [F32.lt_nan_right] at hbc; exact absurd hbc Bool.false_ne_true
    | inf s3 =>
      cases b with
      | nan => rw [F32.lt_nan_right] at hab; exact absurd hab Bool.false_ne_true
      | inf s2 =>
        simp only [F32.lt, Bool.and_eq_true, Bool.not_eq_true'] at hab hbc ⊢
        exact ⟨hab.1, hbc.2⟩
      | fin s2 e2 m2 =>
        simp only [F32.lt, Bool.not_eq_true', Bool.and_eq_true] at hab hbc ⊢
        exact ⟨hab, hbc⟩
    | fin s3 e3 m3 =>
      cases b with
      | nan => rw [F32.lt_nan_right] at hab; exact absurd hab Bool.false_ne_true
      | inf s2 =>
        simp only [F32.lt, Bool.and_eq_true, Bool.not_eq_true'] at hab ⊢
        exact hab.1
      | fin s2 e2 m2 =>
        simp only [F32.lt] at hab ⊢
        exact hab
  | fin s1 e1 m1 =>
    cases c with
    | nan => rw [F32.lt_nan_right] at hbc; exact absurd hbc Bool.false_ne_true
    | inf s3 =>
      cases b with
      | nan => rw [F32.lt_nan_right] at hab; exact absurd hab Bool.false_ne_true
      | inf s2 =>
        simp only [F32.lt, Bool.and_eq_true, Bool.not_eq_true'] at hbc ⊢
        exact hbc.2
      | fin s2 e2 m2 =>
        simp only [F32.lt, Bool.not_eq_true'] at hbc ⊢
        exact hbc
    | fin s3 e3 m3 =>
      cases b with
      | nan => rw [F32.lt_nan_right] at hab; exact absurd hab Bool.false_ne_true
      | inf s2 =>
        simp only [F32.lt, Bool.not_eq_true'] at hab hbc
        rw [hab] at hbc
        exact absurd hbc Bool.false_ne_true
      | fin s2 e2 m2 =>
        rw [F32.lt_fin_iff] at hab hbc ⊢
        exact lt_trans hab hbc

theorem F32.magEQ_symm (e1 e2 : Int) (m1 m2 : Nat) :
    F32.magEQ e1 m1 e2 m2 = F32.magEQ e2 m2 e1 m1 := by
  apply Bool.eq_iff_iff.mpr
  rw [F32.magEQ_iff, F32.magEQ_iff]
  exact eq_comm

theorem F32.beq_symm (a b : F32) : a.beq b = b.beq a := by
  cases a <;> cases b <;> simp only [F32.beq]
  · rename_i s1 s2
    cases s1 <;> cases s2 <;> rfl
  · apply Bool.eq_iff_iff.mpr
    simp only [Bool.or_eq_true, Bool.and_eq_true, beq_iff_eq]
    rw [F32.magEQ_symm]
    constructor
    · rintro (⟨h1, h2⟩ | ⟨h1, h2⟩)
      · exact Or.inl ⟨h2, h1⟩
      · exact Or.inr ⟨h1.symm, h2⟩
    · rintro (⟨h1, h2⟩ | ⟨h1, h2⟩)
      · exact Or.inl ⟨h2, h1⟩
      · exact Or.inr ⟨h1.symm, h2⟩

theorem F32.trichotomy' (a b : F32) (ha : a ≠ F32.nan) (hb : b ≠ F32.nan) :
    a.lt b = true ∨ a.beq b = true ∨ b.lt a = true := by
  cases a with
  | nan => exact absurd rfl ha
  | inf s1 =>
    cases b with
    | nan => exact absurd rfl hb
    | inf s2 => cases s1 <;> cases s2 <;> simp [F32.lt, F32.beq]
    | fin s2 e2 m2 => cases s1 <;> simp [F32.lt]
  | fin s1 e1 m1 =>
    cases b with
    | nan => exact absurd rfl hb
    | inf s2 => cases s2 <;> simp [F32.lt]
    | fin s2 e2 m2 =>
      rcases lt_trichotomy (F32.fin s1 e1 m1).valQ (F32.fin s2 e2 m2).valQ with h | h | h
      · exact Or.inl ((F32.lt_fin_iff ..).mpr h)
      · exact Or.inr (Or.inl ((F32.beq_fin_iff ..).mpr h))
      · exact Or.inr (Or.inr ((F32.lt_fin_iff ..).mpr h))

theorem F32.beq_lt_absurd (a b : F32) (h1 : a.beq b = true) (h2 : b.lt a = true) : False := by
  cases a with
  | nan => rw [F32.lt_nan_right] at h2; exact Bool.false_ne_true h2
  | inf s1 =>
    cases b with
    | nan => rw [F32.lt_nan_left] at h2; exact Bool.false_ne_true h2
    | inf s2 =>
      simp only [F32.beq, beq_iff_eq] at h1
      subst h1
      rw [F32.lt_irrefl'] at h2
      exact Bool.false_ne_true h2
    | fin s2 e2 m2 => simp [F32.beq] at h1
  | fin s1 e1 m1 =>
    cases b with
    | nan => rw [F32.lt_nan_left] at h2; exact Bool.false_ne_true h2
    | inf s2 => simp [F32.beq] at h1
    | fin s2 e2 m2 =>
      rw [F32.beq_fin_iff] at h1
      rw [F32.lt_fin_iff] at h2
      rw [h1] at h2
      exact lt_irrefl _ h2

theorem F32.lt_asymm' (a b : F32) (h1 : a.lt b = true) (h2 : b.lt a = true) : False := by
  have := F32.lt_trans' a b a h1 h2
  rw [F32.lt_irrefl'] at this
  exact Bool.false_ne_true this

theorem F32.le_lt_absurd (a b : F32) (h1 : a.le b = true) (h2 : b.lt a = true) : False := by
  unfold F32.le at h1
  rcases Bool.or_eq_true_iff.mp h1 with h | h
  · exact F32.lt_asymm' a b h h2
  · exact F32.beq_lt_absurd a b h h2

theorem F32.lt_of_not_le (a b : F32) (ha : a ≠ F32.nan) (hb : b ≠ F32.nan)
    (h : b.le a = false) : a.lt b = true := by
  rcases F32.trichotomy' a b ha hb with h' | h' | h'
  · exact h'
  · exfalso
    unfold F32.le at h
    rw [F32.beq_symm b a, h'] at h
    simp at h
  · exfalso
    unfold F32.le at h
    rw [h'] at h
    simp at h

theorem F32.lt_beq_subst (a b c : F32) (h1 : a.lt b = true) (h2 : b.beq c = true) :
    a.lt c = true := by
  cases b with
  | nan => rw [F32.lt_nan_right] at h1; exact absurd h1 Bool.false_ne_true
  | inf s2 =>
    cases c with
    | nan => simp [F32.beq] at h2
    | inf s3 =>
      simp only [F32.beq, beq_iff_eq] at h2
      subst h2
      exact h1
    | fin s3 e3 m3 => simp [F32.beq] at h2
  | fin s2 e2 m2 =>
    cases c with
    | nan => simp [F32.beq] at h2
    | inf s3 => simp [F32.beq] at h2
    | fin s3 e3 m3 =>
      rw [F32.beq_fin_iff] at h2
      cases a with
      | nan => rw [F32.lt_nan_left] at h1; exact absurd h1 Bool.false_ne_true
      | inf s1 => simpa only [F32.lt] using h1
      | fin s1 e1 m1 =>
        rw [F32.lt_fin_iff] at h1 ⊢
        rw [← h2]
        exact h1

theorem F32.beq_lt_subst (a b c : F32) (h1 : a.beq b = true) (h2 : b.lt c = true) :
    a.lt c = true := by
  cases b with
  | nan => rw [F32.lt_nan_left] at h2; exact absurd h2 Bool.false_ne_true
  | inf s2 =>
    cases a with
    | nan => simp [F32.beq] at h1
    | inf s1 =>
      simp only [F32.beq, beq_iff_eq] at h1
      subst h1
      exact h2
    | fin s1 e1 m1 => simp [F32.beq] at h1
  | fin s2 e2 m2 =>
    cases a with
    | nan => simp [F32.beq] at h1
    | inf s1 => simp [F32.beq] at h1
    | fin s1 e1 m1 =>
      rw [F32.beq_fin_iff] at h1
      cases c with
      | nan => rw [F32.lt_nan_right] at h2; exact absurd h2 Bool.false_ne_true
      | inf s3 => simpa only [F32.lt] using h2
      | fin s3 e3 m3 =>
        rw [F32.lt_fin_iff] at h2 ⊢
        rw [h1]
        exact h2

theorem F32.lt_of_lt_of_le' (a b c : F32) (h1 : a.lt b = true) (h2 : b.le c = true) :
    a.lt c = true := by
  unfold F32.le at h2
  rcases Bool.or_eq_true_iff.mp h2 with h | h
  · exact F32.lt_trans' a b c h1 h
  · exact F32.lt_beq_subst a b c h1 h

theorem F32.lt_of_le_of_lt' (a b c : F32) (h1 : a.le b = true) (h2 : b.lt c = true) :
    a.lt c = true := by
  unfold F32.le at h1
  rcases Bool.or_eq_true_iff.mp h1 with h | h
  · exact F32.lt_trans' a b c h h2
  · exact F32.beq_lt_subst a b c h h2

theorem F32.le_trans'' (a b c : F32) (h1 : a.le b = true) (h2 : b.le c = true) :
    a.le c = true := by
  unfold F32.le at h2
  rcases Bool.or_eq_true_iff.mp h2 with h | h
  · exact F32.le_of_lt' _ _ (F32.lt_of_le_of_lt' a b c h1 h)
  · unfold F32.le at h1 ⊢
    rcases Bool.or_eq_true_iff.mp h1 with h' | h'
    · rw [F32.lt_beq_subst a b c h' h]
      simp
    · cases b with
      | nan => simp [F32.beq] at h
      | inf s2 =>
        cases a <;> cases c <;> simp_all [F32.beq]
      | fin s2 e2 m2 =>
        cases a with
        | nan => simp [F32.beq] at h'
        | inf s1 => simp [F32.beq] at h'
        | fin s1 e1 m1 =>
          cases c with
          | nan => simp [F32.beq] at h
          | inf s3 => simp [F32.beq] at h
          | fin s3 e3 m3 =>
            rw [F32.beq_fin_iff] at h h'
            have hac : (F32.fin s1 e1 m1).beq (F32.fin s3 e3 m3) = true :=
              (F32.beq_fin_iff ..).mpr (h'.trans h)
            rw [hac]
            simp

theorem f32_min_eq_or (a b : F32) : f32_min a b = a ∨ f32_min a b = b := by
  unfold f32_min
  split_ifs <;> simp

theorem f32_max_eq_or (a b : F32) : f32_max a b = a ∨ f32_max a b = b := by
  unfold f32_max
  split_ifs <;> simp

theorem f32_min_J (u endv : F32) (hne : endv ≠ F32.nan) :
    f32_min u endv = endv ∨ ((f32_min u endv).lt endv = true ∧ f32_min u endv = u) := by
  unfold f32_min
  by_cases h1 : u = F32.nan
  · rw [if_pos h1]
    exact Or.inl rfl
  · rw [if_neg h1, if_neg hne]
    by_cases h3 : u.lt endv = true
    · rw [if_pos h3]
      exact Or.inr ⟨h3, rfl⟩
    · rw [if_neg h3]
      exact Or.inl rfl

theorem f32_max_lt_left (x a b : F32) (hb : b ≠ F32.nan)
    (hxa : a ≠ F32.nan → x.lt a = true) (hxb : x.lt b = true) :
    x.lt (f32_max a b) = true := by
  unfold f32_max
  by_cases h1 : a = F32.nan
  · rw [if_pos h1]
    exact hxb
  · rw [if_neg h1, if_neg hb]
    by_cases h3 : a.lt b = true
    · rw [if_pos h3]
      exact hxb
    · rw [if_neg h3]
      exact hxa h1

theorem complete_segment_remaining (p : SeamProgress) (r : RangeF32) (st : RangeStatus) :
    (p.complete_segment r st).remaining = p.remaining := by
  unfold SeamProgress.complete_segment
  by_cases h : r.is_empty = true
  · rw [if_pos h]
  · rw [if_neg h]
    cases p.complete.getLast? with
    | none => rfl
    | some prev =>
      dsimp only
      split_ifs <;> rfl

theorem complete_segment_len (p : SeamProgress) (r : RangeF32) (st : RangeStatus) :
    (p.complete_segment r st).segment_length = p.segment_length := by
  unfold SeamProgress.complete_segment
  by_cases h : r.is_empty = true
  · rw [if_pos h]
  · rw [if_neg h]
    cases p.complete.getLast? with
    | none => rfl
    | some prev =>
      dsimp only
      split_ifs <;> rfl

theorem take_next_segment_cases (p : SeamProgress) (hne : p.remaining.is_empty = false) :
    ((p.remaining.start.ge F32.negOne && p.remaining.start.lt F32.one) = false ∧
      ∃ split,
        p.take_next_segment =
          (some ⟨p.remaining.start, split⟩,
            { p with remaining := ⟨split, p.remaining.«end»⟩ }) ∧
        SplitSpec p.remaining.start p.segment_length p.remaining.«end» split) ∨
    ((p.remaining.start.ge F32.negOne && p.remaining.start.lt F32.one) = true ∧
      ((RangeF32.is_empty ⟨f32_min F32.one p.remaining.«end», p.remaining.«end»⟩ = true ∧
        p.take_next_segment =
          (none,
            SeamProgress.complete_segment
              { p with remaining := ⟨f32_min F32.one p.remaining.«end», p.remaining.«end»⟩ }
              (RangeF32.inclusive_exclusive p.remaining.start
                (f32_min F32.one p.remaining.«end»))
              RangeStatus.Skipped)) ∨
       (RangeF32.is_empty ⟨f32_min F32.one p.remaining.«end», p.remaining.«end»⟩ = false ∧
        ∃ split,
          p.take_next_segment =
            (some ⟨f32_min F32.one p.remaining.«end», split⟩,
              { SeamProgress.complete_segment
                  { p with remaining := ⟨f32_min F32.one p.remaining.«end», p.remaining.«end»⟩ }
                  (RangeF32.inclusive_exclusive p.remaining.start
                    (f32_min F32.one p.remaining.«end»))
                  RangeStatus.Skipped
                with remaining := ⟨split, p.remaining.«end»⟩ }) ∧
          SplitSpec (f32_min F32.one p.remaining.«end») p.segment_length p.remaining.«end»
            split))) := by
  by_cases hband : (p.remaining.start.ge F32.negOne && p.remaining.start.lt F32.one) = true
  · right
    refine ⟨hband, ?_⟩
    by_cases hemp :
        RangeF32.is_empty ⟨f32_min F32.one p.remaining.«end», p.remaining.«end»⟩ = true
    · left
      refine ⟨hemp, ?_⟩
      unfold SeamProgress.take_next_segment
      simp only [hne, Bool.false_eq_true, if_false, hband, if_true,
        complete_segment_remaining]
      simp only [hemp, if_true]
    · right
      have hemp' :
          RangeF32.is_empty ⟨f32_min F32.one p.remaining.«end», p.remaining.«end»⟩ = false := by
        revert hemp
        cases RangeF32.is_empty ⟨f32_min F32.one p.remaining.«end», p.remaining.«end»⟩ <;> simp
      refine ⟨hemp', ?_⟩
      unfold SeamProgress.take_next_segment
      simp only [hne, Bool.false_eq_true, if_false, hband, if_true,
        complete_segment_remaining, complete_segment_len, hemp', if_false]
      exact ⟨_, rfl, rfl⟩
  · left
    have hband' : (p.remaining.start.ge F32.negOne && p.remaining.start.lt F32.one) = false := by
      revert hband
      cases (p.remaining.start.ge F32.negOne && p.remaining.start.lt F32.one) <;> simp
    refine ⟨hband', ?_⟩
    unfold SeamProgress.take_next_segment
    simp only [hne, Bool.false_eq_true, if_false, hband', if_true]
    exact ⟨_, rfl, rfl⟩

theorem F32.le_of_not_lt (a b : F32) (ha : a ≠ F32.nan) (hb : b ≠ F32.nan)
    (h : a.lt b = false) : b.le a = true := by
  rcases F32.trichotomy' a b ha hb with h' | h' | h'
  · rw [h'] at h
    exact absurd h (by simp)
  · unfold F32.le
    rw [F32.beq_symm b a, h']
    simp
  · exact F32.le_of_lt' b a h'

theorem F32.negOne_ne_nan : F32.negOne ≠ F32.nan := by decide

theorem F32.one_ne_nan : F32.one ≠ F32.nan := by decide

theorem F32.negOne_canon : F32.negOne.IsCanon := by decide

theorem F32.one_canon : F32.one.IsCanon := by decide

theorem F32.zero_canon : F32.zero.IsCanon := by decide

theorem f32_min_ne_nan (a b : F32) (ha : a ≠ F32.nan) : f32_min a b ≠ F32.nan := by
  unfold f32_min
  by_cases h1 : a = F32.nan
  · exact absurd h1 ha
  · rw [if_neg h1]
    by_cases h2 : b = F32.nan
    · rw [if_pos h2]
      exact ha
    · rw [if_neg h2]
      split_ifs
      · exact ha
      · exact h2

theorem f32_max_ne_nan (a b : F32) (hb : b ≠ F32.nan) : f32_max a b ≠ F32.nan := by
  unfold f32_max
  by_cases h1 : a = F32.nan
  · rw [if_pos h1]
    exact hb
  · rw [if_neg h1, if_neg hb]
    split_ifs
    · exact hb
    · exact h1

theorem f32_max_lt_right (x a b : F32) (hb : b ≠ F32.nan) (hxb : x.lt b = true) :
    x.lt (f32_max a b) = true := by
  unfold f32_max
  by_cases h1 : a = F32.nan
  · rw [if_pos h1]
    exact hxb
  · rw [if_neg h1, if_neg hb]
    by_cases h3 : a.lt b = true
    · rw [if_pos h3]
      exact hxb
    · rw [if_neg h3]
      have h3' : a.lt b = false := by
        revert h3
        cases a.lt b <;> simp
      exact F32.lt_of_lt_of_le' x b a hxb (F32.le_of_not_lt a b h1 hb h3')

theorem f32_min_lt_both (x a b : F32) (ha : a ≠ F32.nan) (hxa : x.lt a = true)
    (hxb : b ≠ F32.nan → x.lt b = true) : x.lt (f32_min a b) = true := by
  unfold f32_min
  rw [if_neg ha]
  by_cases h2 : b = F32.nan
  · rw [if_pos h2]
    exact hxa
  · rw [if_neg h2]
    split_ifs
    · exact hxa
    · exact hxb h2

theorem splitSpec_ne_nan (x L endv split : F32) (h : SplitSpec x L endv split)
    (hx : x ≠ F32.nan) : split ≠ F32.nan := by
  unfold SplitSpec at h
  split_ifs at h
  · rw [h]
    exact F32.negOne_ne_nan
  · rw [h]
    exact f32_min_ne_nan _ _ (f32_max_ne_nan _ _ (F32.next_ne_nan x hx))

theorem splitSpec_J (x L endv split : F32) (h : SplitSpec x L endv split)
    (hen : endv ≠ F32.nan) : split = endv ∨ split.lt endv = true := by
  unfold SplitSpec at h
  rcases f32_min_J (f32_max (x.add L) (next_f32 x)) endv hen with hm | ⟨hm1, -⟩
  · split_ifs at h with hc
    · rw [hm] at hc
      rw [Bool.and_eq_true] at hc
      right
      rw [h]
      exact hc.2
    · left
      rw [h, hm]
  · split_ifs at h with hc
    · rw [Bool.and_eq_true] at hc
      right
      rw [h]
      exact F32.lt_trans' _ _ _ hc.2 hm1
    · right
      rw [h]
      exact hm1

theorem splitSpec_progress (x L endv split : F32) (h : SplitSpec x L endv split)
    (hcx : x.IsCanon) (hx : x ≠ F32.nan) (hxi : x ≠ F32.inf false)
    (hxe : x.lt endv = true) : x.lt split = true := by
  have hnext_nan := F32.next_ne_nan x hx
  have hnext_canon := F32.next_canon x hcx
  have hxnext : x.lt (next_f32 x) = true := by
    rw [F32.ord_lt_iff x (next_f32 x) hx hnext_nan hcx hnext_canon,
      F32.ord_next x hcx hx hxi]
    omega
  have hu : x.lt (f32_max (x.add L) (next_f32 x)) = true :=
    f32_max_lt_right x _ _ hnext_nan hxnext
  have hsplit0 : x.lt (f32_min (f32_max (x.add L) (next_f32 x)) endv) = true :=
    f32_min_lt_both x _ _ (f32_max_ne_nan _ _ hnext_nan) hu (fun _ => hxe)
  unfold SplitSpec at h
  split_ifs at h with hc
  · rw [Bool.and_eq_true] at hc
    rw [h]
    exact hc.1
  · rw [h]
    exact hsplit0

theorem splitSpec_canon (x L endv split : F32) (h : SplitSpec x L endv split)
    (hcx : x.IsCanon) (hcL : L.IsCanon) (hce : endv.IsCanon) : split.IsCanon := by
  unfold SplitSpec at h
  have hu : (f32_max (x.add L) (next_f32 x)).IsCanon := by
    rcases f32_max_eq_or (x.add L) (next_f32 x) with he | he <;> rw [he]
    · exact F32.add_canon x L hcx hcL
    · exact F32.next_canon x hcx
  have hs0 : (f32_min (f32_max (x.add L) (next_f32 x)) endv).IsCanon := by
    rcases f32_min_eq_or (f32_max (x.add L) (next_f32 x)) endv with he | he <;> rw [he]
    · exact hu
    · exact hce
  split_ifs at h
  · rw [h]
    exact F32.negOne_canon
  · rw [h]
    exact hs0

theorem splitSpec_band_avoid (x L endv split : F32) (h : SplitSpec x L endv split)
    (hxlt : x.lt F32.negOne = true) : split.le F32.negOne = true := by
  have hx : x ≠ F32.nan := F32.lt_ne_nan_left _ _ hxlt
  unfold SplitSpec at h
  split_ifs at h with hc
  · rw [h]
    exact F32.le_refl' _ F32.negOne_ne_nan
    
  · rw [h]
    have hnc : ¬(x.lt F32.negOne &&
        F32.negOne.lt (f32_min (f32_max (x.add L) (next_f32 x)) endv)) = true := hc
    rw [Bool.and_eq_true] at hnc
    push_neg at hnc
    have h2 := hnc hxlt
    have h2' : F32.negOne.lt (f32_min (f32_max (x.add L) (next_f32 x)) endv) = false := by
      revert h2
      cases F32.negOne.lt (f32_min (f32_max (x.add L) (next_f32 x)) endv) <;> simp
    exact F32.le_of_not_lt _ _ F32.negOne_ne_nan
      (f32_min_ne_nan _ _ (f32_max_ne_nan _ _ (F32.next_ne_nan x hx))) h2'

theorem splitSpec_of_nan (L endv split : F32) (h : SplitSpec F32.nan L endv split) :
    split = endv := by
  unfold SplitSpec at h
  have h1 : F32.nan.add L = F32.nan := by cases L <;> rfl
  have h2 : next_f32 F32.nan = F32.nan := rfl
  rw [h1, h2] at h
  have h3 : f32_max F32.nan F32.nan = F32.nan := by
    unfold f32_max
    simp
  rw [h3] at h
  have h4 : f32_min F32.nan endv = endv := by
    unfold f32_min
    simp
  rw [h4] at h
  have h5 : F32.nan.lt F32.negOne = false := rfl
  rw [h5] at h
  simpa using h

theorem band_false_cases (a b : Bool) (h : (a && b) = false) : a = false ∨ b = false := by
  cases a <;> cases b <;> simp_all

theorem F32.le_inf_false (a : F32) (ha : a ≠ F32.nan) : a.le (F32.inf false) = true := by
  cases a with
  | nan => exact absurd rfl ha
  | inf s => cases s <;> simp [F32.le, F32.lt, F32.beq]
  | fin s e m => simp [F32.le, F32.lt]

theorem not_inf_false_of_nonempty (x endv : F32) (hen : endv ≠ F32.nan)
    (h : RangeF32.is_empty ⟨x, endv⟩ = false) : x ≠ F32.inf false := by
  intro hc
  subst hc
  unfold RangeF32.is_empty F32.ge at h
  rw [F32.le_inf_false endv hen] at h
  simp at h

theorem lt_end_of_nonempty (x endv : F32) (hs : x ≠ F32.nan) (he : endv ≠ F32.nan)
    (h : RangeF32.is_empty ⟨x, endv⟩ = false) : x.lt endv = true := by
  unfold RangeF32.is_empty F32.ge at h
  exact F32.lt_of_not_le x endv hs he h

theorem f32_min_le_first (a b : F32) (ha : a ≠ F32.nan) : (f32_min a b).le a = true := by
  unfold f32_min
  rw [if_neg ha]
  by_cases h2 : b = F32.nan
  · rw [if_pos h2]
    exact F32.le_refl' a ha
  · rw [if_neg h2]
    by_cases h3 : a.lt b = true
    · rw [if_pos h3]
      exact F32.le_refl' a ha
    · rw [if_neg h3]
      have h3' : a.lt b = false := by
        revert h3
        cases a.lt b <;> simp
      exact F32.le_of_not_lt a b ha h2 h3'

theorem F32.one_ne_inf_false : F32.one ≠ F32.inf false := by decide

theorem chainCovers_append (a m b : F32) (l1 l2 : List RangeF32)
    (h1 : chainCovers a l1 m) (h2 : chainCovers m l2 b) : chainCovers a (l1 ++ l2) b := by
  induction l1 generalizing a with
  | nil =>
    unfold chainCovers at h1
    subst h1
    simpa using h2
  | cons seg rest ih =>
    obtain ⟨hs, hrest⟩ := h1
    exact ⟨hs, ih _ hrest⟩

theorem chainCovers_mem (w : F32) : ∀ (l : List RangeF32) (a b : F32),
    chainCovers a l b →
    (∀ seg ∈ l, seg.«end» ≠ F32.nan) →
    a.le w = true → w.lt b = true →
    ∃ seg ∈ l, seg.start.le w = true ∧ w.lt seg.«end» = true := by
  intro l
  induction l with
  | nil =>
    intro a b hc _ hw1 hw2
    unfold chainCovers at hc
    subst hc
    exact absurd hw1 (fun hle => F32.le_lt_absurd a w hle hw2)
  | cons seg rest ih =>
    intro a b hc hnn hw1 hw2
    obtain ⟨hs, hrest⟩ := hc
    by_cases hin : w.lt seg.«end» = true
    · exact ⟨seg, List.mem_cons_self .., hs ▸ hw1, hin⟩
    · have hwn : w ≠ F32.nan := F32.lt_ne_nan_left _ _ hw2
      have hsegn : seg.«end» ≠ F32.nan := hnn seg (List.mem_cons_self ..)
      have hin' : w.lt seg.«end» = false := by
        revert hin
        cases w.lt seg.«end» <;> simp
      have hle : seg.«end».le w = true := F32.le_of_not_lt w seg.«end» hwn hsegn hin'
      obtain ⟨seg', hmem, h1, h2⟩ := ih seg.«end» b hrest
        (fun s hs' => hnn s (List.mem_cons_of_mem _ hs')) hle hw2
      exact ⟨seg', List.mem_cons_of_mem _ hmem, h1, h2⟩

theorem planLoop_succ_some (fuel : Nat) (p : SeamProgress) (seg : RangeF32)
    (p' : SeamProgress) (h : p.take_next_segment = (some seg, p')) :
    planLoop (fuel + 1) p =
      (seg :: (planLoop fuel p').1, (planLoop fuel p').2.1, (planLoop fuel p').2.2) := by
  have hstep : planLoop (fuel + 1) p =
      match p.take_next_segment with
      | (none, p') => ([], p', true)
      | (some seg, p') =>
        let rest := planLoop fuel p'
        (seg :: rest.1, rest.2.1, rest.2.2) := rfl
  rw [hstep, h]

theorem planLoop_succ_none (fuel : Nat) (p : SeamProgress) (p' : SeamProgress)
    (h : p.take_next_segment = (none, p')) :
    planLoop (fuel + 1) p = ([], p', true) := by
  have hstep : planLoop (fuel + 1) p =
      match p.take_next_segment with
      | (none, p') => ([], p', true)
      | (some seg, p') =>
        let rest := planLoop fuel p'
        (seg :: rest.1, rest.2.1, rest.2.2) := rfl
  rw [hstep, h]

theorem take_next_segment_empty (p : SeamProgress) (h : p.remaining.is_empty = true) :
    p.take_next_segment = (none, p) := by
  unfold SeamProgress.take_next_segment
  rw [if_pos h]

theorem complete_segment_of_empty (p : SeamProgress) (r : RangeF32) (st : RangeStatus)
    (hne : r.is_empty = false) (hc : p.complete = []) :
    (p.complete_segment r st).complete = [(r, st)] := by
  unfold SeamProgress.complete_segment
  rw [if_neg (by simp [hne])]
  rw [hc]
  simp

theorem planLoop_run : ∀ (fuel : Nat) (p : SeamProgress) (segs : List RangeF32)
    (pf : SeamProgress),
    planLoop fuel p = (segs, pf, true) →
    p.segment_length.IsCanon →
    p.remaining.«end».IsCanon → p.remaining.«end» ≠ F32.nan →
    p.remaining.start.IsCanon → p.remaining.start ≠ F32.nan →
    (p.remaining.start = p.remaining.«end» ∨ p.remaining.start.lt p.remaining.«end» = true) →
    pf.remaining.«end» = p.remaining.«end» ∧
    pf.remaining.start = p.remaining.«end» ∧
    (∀ seg ∈ segs, seg.start ≠ F32.nan ∧ seg.«end» ≠ F32.nan ∧
      seg.start.lt seg.«end» = true ∧
      (seg.«end».le F32.negOne = true ∨ F32.one.le seg.start = true)) ∧
    (p.complete = [] →
      (pf.complete = [] ∧ chainCovers p.remaining.start segs p.remaining.«end») ∨
      (∃ sk i, pf.complete = [(sk, RangeStatus.Skipped)] ∧ i ≤ segs.length ∧
        sk.start ≠ F32.nan ∧ sk.«end» ≠ F32.nan ∧ sk.start.lt sk.«end» = true ∧
        sk.start.ge F32.negOne = true ∧ sk.«end».le F32.one = true ∧
        chainCovers p.remaining.start (List.take i segs) sk.start ∧
        chainCovers sk.«end» (List.drop i segs) p.remaining.«end»)) ∧
    (F32.one.le p.remaining.start = true →
      pf.complete = p.complete ∧ chainCovers p.remaining.start segs p.remaining.«end») ∧
    (p.remaining.«end».le F32.negOne = true →
      pf.complete = p.complete ∧ chainCovers p.remaining.start segs p.remaining.«end») := by
  intro fuel
  induction fuel with
  | zero =>
    intro p segs pf hrun
    exfalso
    unfold planLoop at hrun
    injection hrun with h1 h23
    injection h23 with h2 h3
    exact Bool.false_ne_true h3
  | succ f ih =>
    intro p segs pf hrun hcL hcE hnE hcS hnS hJ
    by_cases hemp : p.remaining.is_empty = true
    · rw [planLoop_succ_none f p p (take_next_segment_empty p hemp)] at hrun
      injection hrun with h1 h23
      injection h23 with h2 h3
      subst h1
      subst h2
      have hse : p.remaining.start = p.remaining.«end» := by
        rcases hJ with h | h
        · exact h
        · exfalso
          unfold RangeF32.is_empty F32.ge at hemp
          exact F32.le_lt_absurd _ _ hemp h
      refine ⟨rfl, hse, by simp, ?_, ?_, ?_⟩
      · intro hc
        exact Or.inl ⟨hc, hse⟩
      · intro _
        refine ⟨rfl, ?_⟩
        show p.remaining.start = p.remaining.«end»
        exact hse
      · intro _
        refine ⟨rfl, ?_⟩
        show p.remaining.start = p.remaining.«end»
        exact hse
    · have hemp' : p.remaining.is_empty = false := by
        revert hemp
        cases p.remaining.is_empty <;> simp
      have hltend : p.remaining.start.lt p.remaining.«end» = true := by
        rcases hJ with h | h
        · exfalso
          apply hemp
          unfold RangeF32.is_empty F32.ge
          rw [← h]
          exact F32.le_refl' _ hnS
        · exact h
      rcases take_next_segment_cases p hemp' with ⟨hband, split, heq, hspec⟩ |
        ⟨hband, ⟨hmE, heq⟩ | ⟨hmE, split, heq, hspec⟩⟩
      · -- no-skip step
        have hnotinf : p.remaining.start ≠ F32.inf false :=
          not_inf_false_of_nonempty _ _ hnE hemp'
        have hprog : p.remaining.start.lt split = true :=
          splitSpec_progress _ _ _ _ hspec hcS hnS hnotinf hltend
        have hsCanon : split.IsCanon := splitSpec_canon _ _ _ _ hspec hcS hcL hcE
        have hsNan : split ≠ F32.nan := splitSpec_ne_nan _ _ _ _ hspec hnS
        have hsJ := splitSpec_J _ _ _ _ hspec hnE
        rw [planLoop_succ_some f p _ _ heq] at hrun
        injection hrun with h1 h23
        injection h23 with h2 h3
        obtain ⟨hE2, hS2, hsegs2, hA2, hB2, hC2⟩ :=
          ih { p with remaining := ⟨split, p.remaining.«end»⟩ }
            (planLoop f { p with remaining := ⟨split, p.remaining.«end»⟩ }).1
            (planLoop f { p with remaining := ⟨split, p.remaining.«end»⟩ }).2.1
            (by rw [← h3]) hcL hcE hnE hsCanon hsNan hsJ
        subst h2
        subst h1
        refine ⟨hE2, hS2, ?_, ?_, ?_, ?_⟩
        · intro seg hmem
          rcases List.mem_cons.mp hmem with hm | hm
          · subst hm
            refine ⟨hnS, hsNan, hprog, ?_⟩
            rcases band_false_cases _ _ hband with hge | hlt
            · left
              exact splitSpec_band_avoid _ _ _ _ hspec
                (F32.lt_of_not_le _ _ hnS F32.negOne_ne_nan hge)
            · right
              exact F32.le_of_not_lt _ _ hnS F32.one_ne_nan hlt
          · exact hsegs2 seg hm
        · intro hc
          rcases hA2 hc with ⟨hpf, hchain⟩ | ⟨sk, i, hpfc, hilen, hskn1, hskn2, hsklt,
            hskge, hskle, htake, hdrop⟩
          · exact Or.inl ⟨hpf, rfl, hchain⟩
          · refine Or.inr ⟨sk, i + 1, hpfc, by simpa using Nat.succ_le_succ hilen,
              hskn1, hskn2, hsklt, hskge, hskle, ⟨rfl, htake⟩, hdrop⟩
        · intro hone
          obtain ⟨hpfc, hchain⟩ := hB2
            (F32.le_of_lt' _ _ (F32.lt_of_le_of_lt' _ _ _ hone hprog))
          exact ⟨hpfc, rfl, hchain⟩
        · intro hcend
          obtain ⟨hpfc, hchain⟩ := hC2 hcend
          exact ⟨hpfc, rfl, hchain⟩
      · -- skip, then the remaining range is exhausted
        rw [Bool.and_eq_true] at hband
        have hm_end : f32_min F32.one p.remaining.«end» = p.remaining.«end» := by
          rcases f32_min_J F32.one p.remaining.«end» hnE with h | ⟨h1, -⟩
          · exact h
          · exfalso
            unfold RangeF32.is_empty F32.ge at hmE
            exact F32.le_lt_absurd _ _ hmE h1
        rw [planLoop_succ_none f p _ heq] at hrun
        injection hrun with h1 h23
        injection h23 with h2 h3
        subst h1
        subst h2
        have hskne : RangeF32.is_empty
            ⟨p.remaining.start, f32_min F32.one p.remaining.«end»⟩ = false := by
          rw [hm_end]
          exact hemp'
        have hremain : (SeamProgress.complete_segment
            { p with remaining := ⟨f32_min F32.one p.remaining.«end», p.remaining.«end»⟩ }
            (RangeF32.inclusive_exclusive p.remaining.start
              (f32_min F32.one p.remaining.«end»))
            RangeStatus.Skipped).remaining =
            ⟨f32_min F32.one p.remaining.«end», p.remaining.«end»⟩ :=
          complete_segment_remaining _ _ _
        refine ⟨?_, ?_, by simp, ?_, ?_, ?_⟩
        · rw [hremain]
        · rw [hremain, hm_end]
        · intro hc
          refine Or.inr ⟨⟨p.remaining.start, f32_min F32.one p.remaining.«end»⟩, 0,
            ?_, by simp, hnS, by rw [hm_end]; exact hnE, by rw [hm_end]; exact hltend,
            hband.1, f32_min_le_first _ _ F32.one_ne_nan, rfl, ?_⟩
          · exact complete_segment_of_empty _ _ _ hskne hc
          · simp only [List.drop_nil, List.drop]
            exact hm_end
        · intro hone
          exact absurd hband.2 (fun h => F32.le_lt_absurd _ _ hone h)
        · intro hcend
          exact absurd hband.1 (fun h => F32.le_lt_absurd _ _ h
            (F32.lt_of_lt_of_le' _ _ _ hltend hcend))
      · -- skip, then a further segment is produced
        rw [Bool.and_eq_true] at hband
        have hm_one : f32_min F32.one p.remaining.«end» = F32.one ∧
            (f32_min F32.one p.remaining.«end»).lt p.remaining.«end» = true := by
          rcases f32_min_J F32.one p.remaining.«end» hnE with h | ⟨h1, h2⟩
          · exfalso
            apply (by simp [hmE] : ¬ RangeF32.is_empty
              ⟨f32_min F32.one p.remaining.«end», p.remaining.«end»⟩ = true)
            unfold RangeF32.is_empty F32.ge
            rw [h]
            exact F32.le_refl' _ hnE
          · exact ⟨h2, h1⟩
        have hmcanon : (f32_min F32.one p.remaining.«end»).IsCanon := by
          rw [hm_one.1]
          exact F32.one_canon
        have hmnan : f32_min F32.one p.remaining.«end» ≠ F32.nan := by
          rw [hm_one.1]
          exact F32.one_ne_nan
        have hminf : f32_min F32.one p.remaining.«end» ≠ F32.inf false := by
          rw [hm_one.1]
          exact F32.one_ne_inf_false
        have hprog : (f32_min F32.one p.remaining.«end»).lt split = true :=
          splitSpec_progress _ _ _ _ hspec hmcanon hmnan hminf hm_one.2
        have hsCanon : split.IsCanon := splitSpec_canon _ _ _ _ hspec hmcanon hcL hcE
        have hsNan : split ≠ F32.nan := splitSpec_ne_nan _ _ _ _ hspec hmnan
        have hsJ := splitSpec_J _ _ _ _ hspec hnE
        have hskne : RangeF32.is_empty
            ⟨p.remaining.start, f32_min F32.one p.remaining.«end»⟩ = false := by
          unfold RangeF32.is_empty F32.ge
          have hlt1 : p.remaining.start.lt (f32_min F32.one p.remaining.«end») = true := by
            rw [hm_one.1]
            exact hband.2
          by_contra hcon
          have : (f32_min F32.one p.remaining.«end»).le p.remaining.start = true := by
            revert hcon
            cases (f32_min F32.one p.remaining.«end»).le p.remaining.start <;> simp
          exact F32.le_lt_absurd _ _ this hlt1
        rw [planLoop_succ_some f p _ _ heq] at hrun
        injection hrun with h1 h23
        injection h23 with h2 h3
        have hlen3 : (SeamProgress.complete_segment
            { p with remaining := ⟨f32_min F32.one p.remaining.«end», p.remaining.«end»⟩ }
            (RangeF32.inclusive_exclusive p.remaining.start
              (f32_min F32.one p.remaining.«end»))
            RangeStatus.Skipped).segment_length = p.segment_length :=
          complete_segment_len _ _ _
        obtain ⟨hE2, hS2, hsegs2, hA2, hB2, hC2⟩ :=
          ih { SeamProgress.complete_segment
                { p with remaining := ⟨f32_min F32.one p.remaining.«end», p.remaining.«end»⟩ }
                (RangeF32.inclusive_exclusive p.remaining.start
                  (f32_min F32.one p.remaining.«end»))
                RangeStatus.Skipped
              with remaining := ⟨split, p.remaining.«end»⟩ }
            (planLoop f
              { SeamProgress.complete_segment
                  { p with remaining := ⟨f32_min F32.one p.remaining.«end», p.remaining.«end»⟩ }
                  (RangeF32.inclusive_exclusive p.remaining.start
                    (f32_min F32.one p.remaining.«end»))
                  RangeStatus.Skipped
                with remaining := ⟨split, p.remaining.«end»⟩ }).1
            (planLoop f
              { SeamProgress.complete_segment
                  { p with remaining := ⟨f32_min F32.one p.remaining.«end», p.remaining.«end»⟩ }
                  (RangeF32.inclusive_exclusive p.remaining.start
                    (f32_min F32.one p.remaining.«end»))
                  RangeStatus.Skipped
                with remaining := ⟨split, p.remaining.«end»⟩ }).2.1
            (by rw [← h3]) (by show (SeamProgress.complete_segment _ _ _).segment_length.IsCanon; rw [complete_segment_len]; exact hcL) hcE hnE hsCanon hsNan hsJ
        subst h2
        subst h1
        have hone3 : F32.one.le split = true := by
          apply F32.le_of_lt'
          rw [← hm_one.1]
          exact hprog
        obtain ⟨hpfc, hchain⟩ := hB2 hone3
        have hp1c : (SeamProgress.complete_segment
            { p with remaining := ⟨f32_min F32.one p.remaining.«end», p.remaining.«end»⟩ }
            (RangeF32.inclusive_exclusive p.remaining.start
              (f32_min F32.one p.remaining.«end»))
            RangeStatus.Skipped).complete =
              [(⟨p.remaining.start, f32_min F32.one p.remaining.«end»⟩,
                RangeStatus.Skipped)] → True := fun _ => trivial
        refine ⟨hE2, hS2, ?_, ?_, ?_, ?_⟩
        · intro seg hmem
          rcases List.mem_cons.mp hmem with hm | hm
          · subst hm
            refine ⟨hmnan, hsNan, hprog, Or.inr ?_⟩
            rw [hm_one.1]
            exact F32.le_refl' _ F32.one_ne_nan
          · exact hsegs2 seg hm
        · intro hc
          have hcomp1 : (SeamProgress.complete_segment
              { p with remaining := ⟨f32_min F32.one p.remaining.«end», p.remaining.«end»⟩ }
              (RangeF32.inclusive_exclusive p.remaining.start
                (f32_min F32.one p.remaining.«end»))
              RangeStatus.Skipped).complete =
                [(⟨p.remaining.start, f32_min F32.one p.remaining.«end»⟩,
                  RangeStatus.Skipped)] :=
            complete_segment_of_empty _ _ _ hskne hc
          refine Or.inr ⟨⟨p.remaining.start, f32_min F32.one p.remaining.«end»⟩, 0,
            ?_, Nat.zero_le _, hnS, hmnan, by rw [hm_one.1]; exact hband.2,
            hband.1, by rw [hm_one.1]; exact F32.le_refl' _ F32.one_ne_nan,
            rfl, ⟨rfl, hchain⟩⟩
          rw [hpfc]
          exact hcomp1
        · intro hone
          exact absurd hband.2 (fun h => F32.le_lt_absurd _ _ hone h)
        · intro hcend
          exact absurd hband.1 (fun h => F32.le_lt_absurd _ _ h
            (F32.lt_of_lt_of_le' _ _ _ hltend hcend))

theorem nonempty_of_lt (x endv : F32) (h : x.lt endv = true) :
    RangeF32.is_empty ⟨x, endv⟩ = false := by
  unfold RangeF32.is_empty F32.ge
  cases hle : endv.le x
  · rfl
  · exact (F32.le_lt_absurd endv x hle h).elim

theorem is_empty_false_iff (p : SeamProgress) (hemp : ¬ p.remaining.is_empty = true) :
    p.remaining.is_empty = false := by
  revert hemp
  cases p.remaining.is_empty <;> simp

theorem planLoop_terminates : ∀ (n : Nat) (p : SeamProgress),
    p.segment_length.IsCanon →
    p.remaining.«end».IsCanon → p.remaining.«end» ≠ F32.nan →
    p.remaining.start.IsCanon → p.remaining.start ≠ F32.nan →
    (p.remaining.«end».ord - p.remaining.start.ord).toNat ≤ n →
    (planLoop (n + 1) p).2.2 = true := by
  intro n
  induction n with
  | zero =>
    intro p hcL hcE hnE hcS hnS hmeas
    by_cases hemp : p.remaining.is_empty = true
    · rw [planLoop_succ_none 0 p p (take_next_segment_empty p hemp)]
    · exfalso
      have hemp' := is_empty_false_iff p hemp
      have hlt : p.remaining.start.lt p.remaining.«end» = true :=
        lt_end_of_nonempty _ _ hnS hnE hemp'
      rw [F32.ord_lt_iff _ _ hnS hnE hcS hcE] at hlt
      omega
  | succ n ih =>
    intro p hcL hcE hnE hcS hnS hmeas
    by_cases hemp : p.remaining.is_empty = true
    · rw [planLoop_succ_none (n + 1) p p (take_next_segment_empty p hemp)]
    · have hemp' := is_empty_false_iff p hemp
      have hlt : p.remaining.start.lt p.remaining.«end» = true :=
        lt_end_of_nonempty _ _ hnS hnE hemp'
      have h0 : p.remaining.start.ord < p.remaining.«end».ord :=
        (F32.ord_lt_iff _ _ hnS hnE hcS hcE).mp hlt
      rcases take_next_segment_cases p hemp' with ⟨hband, split, heq, hspec⟩ |
        ⟨hband, ⟨hemp2, heq⟩ | ⟨hemp2, split, heq, hspec⟩⟩
      · rw [planLoop_succ_some (n + 1) p _ _ heq]
        have hxi := not_inf_false_of_nonempty p.remaining.start p.remaining.«end» hnE hemp'
        have hcsplit := splitSpec_canon _ _ _ _ hspec hcS hcL hcE
        have hnsplit := splitSpec_ne_nan _ _ _ _ hspec hnS
        have hprog := splitSpec_progress _ _ _ _ hspec hcS hnS hxi hlt
        have h1 : p.remaining.start.ord < split.ord :=
          (F32.ord_lt_iff _ _ hnS hnsplit hcS hcsplit).mp hprog
        have h2 : split.ord ≤ p.remaining.«end».ord := by
          rcases splitSpec_J _ _ _ _ hspec hnE with h | h
          · rw [h]
          · exact le_of_lt ((F32.ord_lt_iff _ _ hnsplit hnE hcsplit hcE).mp h)
        exact ih { p with remaining := ⟨split, p.remaining.«end»⟩ }
          hcL hcE hnE hcsplit hnsplit
          (by show (p.remaining.«end».ord - split.ord).toNat ≤ n; omega)
      · rw [planLoop_succ_none (n + 1) p _ heq]
      · rw [planLoop_succ_some (n + 1) p _ _ heq]
        have hminn : f32_min F32.one p.remaining.«end» ≠ F32.nan :=
          f32_min_ne_nan _ _ F32.one_ne_nan
        have hminc : (f32_min F32.one p.remaining.«end»).IsCanon := by
          rcases f32_min_eq_or F32.one p.remaining.«end» with he | he <;> rw [he]
          · exact F32.one_canon
          · exact hcE
        have hxi := not_inf_false_of_nonempty (f32_min F32.one p.remaining.«end»)
          p.remaining.«end» hnE hemp2
        have hminlt : (f32_min F32.one p.remaining.«end»).lt p.remaining.«end» = true :=
          lt_end_of_nonempty _ _ hminn hnE hemp2
        have hcsplit := splitSpec_canon _ _ _ _ hspec hminc hcL hcE
        have hnsplit := splitSpec_ne_nan _ _ _ _ hspec hminn
        have hprog := splitSpec_progress _ _ _ _ hspec hminc hminn hxi hminlt
        rw [Bool.and_eq_true] at hband
        have hstartlt : p.remaining.start.lt (f32_min F32.one p.remaining.«end») = true :=
          f32_min_lt_both _ _ _ F32.one_ne_nan hband.2 (fun _ => hlt)
        have hps : p.remaining.start.lt split = true :=
          F32.lt_trans' _ _ _ hstartlt hprog
        have h1 : p.remaining.start.ord < split.ord :=
          (F32.ord_lt_iff _ _ hnS hnsplit hcS hcsplit).mp hps
        have h2 : split.ord ≤ p.remaining.«end».ord := by
          rcases splitSpec_J _ _ _ _ hspec hnE with h | h
          · rw [h]
          · exact le_of_lt ((F32.ord_lt_iff _ _ hnsplit hnE hcsplit hcE).mp h)
        apply ih
        · show (SeamProgress.complete_segment _ _ _).segment_length.IsCanon
          rw [complete_segment_len]
          exact hcL
        · exact hcE
        · exact hnE
        · exact hcsplit
        · exact hnsplit
        · show (p.remaining.«end».ord - split.ord).toNat ≤ n
          omega

theorem RunsChain_nil (a b : F32) : RunsChain a [] b ↔ a = b := Iff.rfl

theorem RunsChain_cons (a b : F32) (seg : RangeF32) (st : RangeStatus)
    (rest : List (RangeF32 × RangeStatus)) :
    RunsChain a ((seg, st) :: rest) b ↔
      (seg.start = a ∧ seg.is_empty = false ∧ st ≠ RangeStatus.Unchecked ∧
        (∀ x, rest.head? = some x → x.2 ≠ st) ∧ RunsChain seg.«end» rest b) := Iff.rfl

theorem RunsChain_snoc_iff : ∀ (l : List (RangeF32 × RangeStatus)) (a b : F32)
    (r : RangeF32) (st : RangeStatus),
    RunsChain a (l ++ [(r, st)]) b ↔
      (RunsChain a l r.start ∧ r.is_empty = false ∧ st ≠ RangeStatus.Unchecked ∧
        (∀ x, l.getLast? = some x → x.2 ≠ st) ∧ r.«end» = b) := by
  intro l
  induction l with
  | nil =>
    intro a b r st
    constructor
    · intro h
      refine ⟨(h.1).symm, h.2.1, h.2.2.1, ?_, h.2.2.2.2⟩
      intro x hx
      exact nomatch hx
    · intro h
      refine ⟨(h.1).symm, h.2.1, h.2.2.1, ?_, h.2.2.2.2⟩
      intro x hx
      exact nomatch hx
  | cons hd rest ih =>
    intro a b r st
    obtain ⟨seg, st1⟩ := hd
    cases rest with
    | nil =>
      constructor
      · intro h
        refine ⟨⟨h.1, h.2.1, h.2.2.1, ?_, (h.2.2.2.2.1).symm⟩,
          h.2.2.2.2.2.1, h.2.2.2.2.2.2.1, ?_, h.2.2.2.2.2.2.2.2⟩
        · intro x hx
          exact nomatch hx
        · intro x hx
          injection hx with h9
          exact h9 ▸ Ne.symm (h.2.2.2.1 (r, st) rfl)
      · intro h
        refine ⟨h.1.1, h.1.2.1, h.1.2.2.1, ?_,
          (h.1.2.2.2.2).symm, h.2.1, h.2.2.1, ?_, h.2.2.2.2⟩
        · intro x hx
          injection hx with h9
          exact h9 ▸ Ne.symm (h.2.2.2.1 (seg, st1) rfl)
        · intro x hx
          exact nomatch hx
    | cons hd2 t =>
      constructor
      · intro h
        obtain ⟨hc, hne, hstU, hlast, hend⟩ := (ih seg.«end» b r st).mp h.2.2.2.2
        exact ⟨⟨h.1, h.2.1, h.2.2.1, fun x hx => h.2.2.2.1 x hx, hc⟩, hne, hstU,
          fun x hx => hlast x hx, hend⟩
      · intro h
        exact ⟨h.1.1, h.1.2.1, h.1.2.2.1, fun x hx => h.1.2.2.2.1 x hx,
          (ih seg.«end» b r st).mpr
            ⟨h.1.2.2.2.2, h.2.1, h.2.2.1, fun x hx => h.2.2.2.1 x hx, h.2.2.2.2⟩⟩

theorem getLast?_decomp : ∀ (l : List (RangeF32 × RangeStatus)) (x : RangeF32 × RangeStatus),
    l.getLast? = some x → l = l.dropLast ++ [x] := by
  intro l
  induction l with
  | nil => intro x hx; exact nomatch hx
  | cons hd rest ih =>
    intro x hx
    cases rest with
    | nil =>
      injection hx with h9
      rw [← h9]
      rfl
    | cons hd2 t =>
      rw [List.getLast?_cons_cons] at hx
      have h2 := ih x hx
      calc hd :: hd2 :: t = hd :: ((hd2 :: t).dropLast ++ [x]) := by rw [← h2]
        _ = (hd :: hd2 :: t).dropLast ++ [x] := by rfl

theorem complete_segment_eq_append_none (p : SeamProgress) (seg : RangeF32)
    (st : RangeStatus) (hne : seg.is_empty = false) (h : p.complete.getLast? = none) :
    (p.complete_segment seg st).complete = p.complete ++ [(seg, st)] := by
  unfold SeamProgress.complete_segment
  rw [if_neg (by simp [hne]), h]

theorem complete_segment_eq_merge (p : SeamProgress) (seg : RangeF32) (st : RangeStatus)
    (prevr : RangeF32) (prevst : RangeStatus)
    (hne : seg.is_empty = false) (h : p.complete.getLast? = some (prevr, prevst))
    (hc : (prevr.«end».beq seg.start && prevst == st) = true) :
    (p.complete_segment seg st).complete =
      p.complete.dropLast ++ [(⟨prevr.start, seg.«end»⟩, prevst)] := by
  unfold SeamProgress.complete_segment
  rw [if_neg (by simp [hne]), h]
  dsimp only
  rw [if_pos hc]

theorem complete_segment_eq_append (p : SeamProgress) (seg : RangeF32) (st : RangeStatus)
    (prevr : RangeF32) (prevst : RangeStatus)
    (hne : seg.is_empty = false) (h : p.complete.getLast? = some (prevr, prevst))
    (hc : (prevr.«end».beq seg.start && prevst == st) = false) :
    (p.complete_segment seg st).complete = p.complete ++ [(seg, st)] := by
  unfold SeamProgress.complete_segment
  rw [if_neg (by simp [hne]), h]
  dsimp only
  rw [if_neg (by simp [hc])]

theorem complete_segment_runs (a m : F32) (p : SeamProgress) (seg : RangeF32)
    (st : RangeStatus)
    (hchain : RunsChain a p.complete m)
    (hnn : ∀ r ∈ p.complete, r.1.start ≠ F32.nan ∧ r.1.«end» ≠ F32.nan)
    (hm : seg.start = m)
    (hsn : seg.start ≠ F32.nan) (hen : seg.«end» ≠ F32.nan)
    (hne : seg.is_empty = false)
    (hst : st ≠ RangeStatus.Unchecked) :
    RunsChain a (p.complete_segment seg st).complete seg.«end» ∧
    (∀ r ∈ (p.complete_segment seg st).complete,
      r.1.start ≠ F32.nan ∧ r.1.«end» ≠ F32.nan) := by
  have hseglt : seg.start.lt seg.«end» = true :=
    lt_end_of_nonempty seg.start seg.«end» hsn hen hne
  cases hlast : p.complete.getLast? with
  | none =>
    rw [complete_segment_eq_append_none p seg st hne hlast]
    have hcnil : p.complete = [] := by rwa [List.getLast?_eq_none_iff] at hlast
    have ha : a = m := by rw [hcnil] at hchain; exact hchain
    constructor
    · rw [hcnil, List.nil_append]
      refine ⟨hm.trans ha.symm, hne, hst, ?_, rfl⟩
      intro x hx
      exact nomatch hx
    · intro r hr
      rw [hcnil, List.nil_append, List.mem_singleton] at hr
      rw [hr]
      exact ⟨hsn, hen⟩
  | some prev =>
    obtain ⟨prevr, prevst⟩ := prev
    have hdecomp := getLast?_decomp p.complete (prevr, prevst) hlast
    have hmem : (prevr, prevst) ∈ p.complete := by
      rw [hdecomp]
      exact List.mem_append_right _ (List.mem_singleton_self _)
    obtain ⟨hpsn, hpen⟩ := hnn (prevr, prevst) hmem
    have hchain2 := hchain
    rw [hdecomp, RunsChain_snoc_iff] at hchain2
    obtain ⟨hinit, hprevne, hprevstU, hdist, hprevend⟩ := hchain2
    have hbeq : prevr.«end».beq seg.start = true := by
      rw [hprevend, hm]
      exact F32.beq_refl m (hm ▸ hsn)
    have hplt : prevr.start.lt seg.«end» = true := by
      have h1 : prevr.start.lt prevr.«end» = true :=
        lt_end_of_nonempty prevr.start prevr.«end» hpsn hpen hprevne
      have h2 : prevr.start.lt seg.start = true := by
        rw [hm, ← hprevend]
        exact h1
      exact F32.lt_trans' _ _ _ h2 hseglt
    by_cases hstat : (prevst == st) = true
    · rw [complete_segment_eq_merge p seg st prevr prevst hne hlast (by rw [hbeq, Bool.true_and]; exact hstat)]
      have hsteq : prevst = st := by simpa using hstat
      constructor
      · rw [RunsChain_snoc_iff]
        exact ⟨hinit, nonempty_of_lt _ _ hplt, hsteq ▸ hst, hdist, rfl⟩
      · intro r hr
        rcases List.mem_append.mp hr with hr | hr
        · exact hnn r (by rw [hdecomp]; exact List.mem_append_left _ hr)
        · rw [List.mem_singleton] at hr
          rw [hr]
          exact ⟨hpsn, hen⟩
    · have hstat2 : (prevst == st) = false := by
        revert hstat
        cases prevst == st <;> simp
      rw [complete_segment_eq_append p seg st prevr prevst hne hlast
        (by rw [hbeq, Bool.true_and]; exact hstat2)]
      constructor
      · rw [RunsChain_snoc_iff]
        refine ⟨hm ▸ hchain, hne, hst, ?_, rfl⟩
        intro x hx
        rw [hlast] at hx
        cases hx
        intro he
        have he2 : prevst = st := he
        exact hstat (by rw [he2]; exact beq_self_eq_true' st)
      · intro r hr
        rcases List.mem_append.mp hr with hr | hr
        · exact hnn r hr
        · rw [List.mem_singleton] at hr
          rw [hr]
          exact ⟨hsn, hen⟩

theorem processSegments_eq_nil (p : SeamProgress) :
    ∀ ss : List (RangeF32 × RangeStatus), processSegments p ss = [] → ss = [] := by
  intro ss h
  cases ss with
  | nil => rfl
  | cons s rest =>
    obtain ⟨seg, st⟩ := s
    exact nomatch h

theorem processSegments_chain (a : F32) :
    ∀ (ss : List (RangeF32 × RangeStatus)) (p : SeamProgress) (m c : F32),
    RunsChain a p.complete m →
    (∀ r ∈ p.complete, r.1.start ≠ F32.nan ∧ r.1.«end» ≠ F32.nan) →
    chainCovers m (ss.map Prod.fst) c →
    (∀ s ∈ ss, s.1.start ≠ F32.nan ∧ s.1.«end» ≠ F32.nan ∧ s.1.is_empty = false ∧
      s.2 ≠ RangeStatus.Unchecked) →
    (∀ q ∈ processSegments p ss, ∃ m2, RunsChain a q.complete m2) ∧
    (∀ q, (processSegments p ss).getLast? = some q → RunsChain a q.complete c) ∧
    (ss = [] → m = c) := by
  intro ss
  induction ss with
  | nil =>
    intro p m c hchain hnn hcov hfacts
    refine ⟨?_, ?_, ?_⟩
    · intro q hq
      exact absurd hq (by simp [processSegments])
    · intro q hq
      exact nomatch hq
    · intro _
      exact hcov
  | cons s rest ih =>
    intro p m c hchain hnn hcov hfacts
    obtain ⟨seg, st⟩ := s
    have hcov1 : seg.start = m := hcov.1
    have hcov2 : chainCovers seg.«end» (rest.map Prod.fst) c := hcov.2
    obtain ⟨hsn, hen, hsemp, hstU⟩ := hfacts (seg, st) (List.mem_cons_self ..)
    obtain ⟨hchain2, hnn2⟩ :=
      complete_segment_runs a m p seg st hchain hnn hcov1 hsn hen hsemp hstU
    have ihres := ih (p.complete_segment seg st) seg.«end» c hchain2 hnn2 hcov2
      (fun s hs => hfacts s (List.mem_cons_of_mem _ hs))
    have hps : processSegments p ((seg, st) :: rest) =
        (p.complete_segment seg st) :: processSegments (p.complete_segment seg st) rest := rfl
    refine ⟨?_, ?_, ?_⟩
    · intro q hq
      rw [hps] at hq
      rcases List.mem_cons.mp hq with h | h
      · exact ⟨seg.«end», h ▸ hchain2⟩
      · exact ihres.1 q h
    · intro q hq
      rw [hps] at hq
      cases hrest : processSegments (p.complete_segment seg st) rest with
      | nil =>
        rw [hrest, List.getLast?_singleton] at hq
        cases hq
        have hrnil : rest = [] := processSegments_eq_nil _ rest hrest
        have hmc : seg.«end» = c := ihres.2.2 hrnil
        exact hmc ▸ hchain2
      | cons q2 t =>
        rw [hrest, List.getLast?_cons_cons] at hq
        exact ihres.2.1 q (by rw [hrest]; exact hq)
    · intro h
      exact nomatch h

theorem planLoop_segs_lt : ∀ (fuel : Nat) (p : SeamProgress),
    p.segment_length.IsCanon →
    p.remaining.«end».IsCanon → p.remaining.«end» ≠ F32.nan →
    p.remaining.start.IsCanon → p.remaining.start ≠ F32.nan →
    ∀ seg ∈ (planLoop fuel p).1, seg.start.lt seg.«end» = true := by
  intro fuel
  induction fuel with
  | zero =>
    intro p _ _ _ _ _ seg hseg
    exact absurd hseg (by simp [planLoop])
  | succ f ih =>
    intro p hcL hcE hnE hcS hnS seg hseg
    by_cases hemp : p.remaining.is_empty = true
    · rw [planLoop_succ_none f p p (take_next_segment_empty p hemp)] at hseg
      exact absurd hseg (by simp)
    · have hemp' := is_empty_false_iff p hemp
      have hlt : p.remaining.start.lt p.remaining.«end» = true :=
        lt_end_of_nonempty _ _ hnS hnE hemp'
      rcases take_next_segment_cases p hemp' with ⟨hband, split, heq, hspec⟩ |
        ⟨hband, ⟨hemp2, heq⟩ | ⟨hemp2, split, heq, hspec⟩⟩
      · rw [planLoop_succ_some f p _ _ heq] at hseg
        have hxi := not_inf_false_of_nonempty p.remaining.start p.remaining.«end» hnE hemp'
        have hcsplit := splitSpec_canon _ _ _ _ hspec hcS hcL hcE
        have hnsplit := splitSpec_ne_nan _ _ _ _ hspec hnS
        have hprog := splitSpec_progress _ _ _ _ hspec hcS hnS hxi hlt
        rcases List.mem_cons.mp hseg with h | h
        · rw [h]
          exact hprog
        · exact ih { p with remaining := ⟨split, p.remaining.«end»⟩ }
            hcL hcE hnE hcsplit hnsplit seg h
      · rw [planLoop_succ_none f p _ heq] at hseg
        exact absurd hseg (by simp)
      · rw [planLoop_succ_some f p _ _ heq] at hseg
        have hminn : f32_min F32.one p.remaining.«end» ≠ F32.nan :=
          f32_min_ne_nan _ _ F32.one_ne_nan
        have hminc : (f32_min F32.one p.remaining.«end»).IsCanon := by
          rcases f32_min_eq_or F32.one p.remaining.«end» with he | he <;> rw [he]
          · exact F32.one_canon
          · exact hcE
        have hxi := not_inf_false_of_nonempty (f32_min F32.one p.remaining.«end»)
          p.remaining.«end» hnE hemp2
        have hminlt : (f32_min F32.one p.remaining.«end»).lt p.remaining.«end» = true :=
          lt_end_of_nonempty _ _ hminn hnE hemp2
        have hcsplit := splitSpec_canon _ _ _ _ hspec hminc hcL hcE
        have hnsplit := splitSpec_ne_nan _ _ _ _ hspec hminn
        have hprog := splitSpec_progress _ _ _ _ hspec hminc hminn hxi hminlt
        rcases List.mem_cons.mp hseg with h | h
        · rw [h]
          exact hprog
        · refine ih { SeamProgress.complete_segment
                { p with remaining := ⟨f32_min F32.one p.remaining.«end», p.remaining.«end»⟩ }
                (RangeF32.inclusive_exclusive p.remaining.start
                  (f32_min F32.one p.remaining.«end»))
                RangeStatus.Skipped
              with remaining := ⟨split, p.remaining.«end»⟩ } ?_ hcE hnE hcsplit hnsplit seg h
          show (SeamProgress.complete_segment _ _ _).segment_length.IsCanon
          rw [complete_segment_len]
          exact hcL

theorem plan_initial_chain (range : RangeF32) (L : F32) (fuel : Nat)
    (segs : List RangeF32) (pf : SeamProgress)
    (hrun : planLoop fuel (SeamProgress.new range L) = (segs, pf, true))
    (hcL : L.IsCanon) (hce : range.«end».IsCanon) (hnE : range.«end» ≠ F32.nan)
    (hcs : range.start.IsCanon) (hnS : range.start ≠ F32.nan)
    (hJ : range.start = range.«end» ∨ range.start.lt range.«end» = true)
    (hside : range.start.ge F32.negOne = true ∨ range.«end».le F32.negOne = true) :
    ∃ m0, RunsChain range.start pf.complete m0 ∧
      (∀ r ∈ pf.complete, r.1.start ≠ F32.nan ∧ r.1.«end» ≠ F32.nan) ∧
      chainCovers m0 segs range.«end» ∧
      pf.remaining.start = range.«end» ∧
      (∀ seg ∈ segs, seg.start ≠ F32.nan ∧ seg.«end» ≠ F32.nan ∧
        seg.start.lt seg.«end» = true ∧
        (seg.«end».le F32.negOne = true ∨ F32.one.le seg.start = true)) := by
  obtain ⟨hE, hS, hsegs, hA, hB, hC⟩ :=
    planLoop_run fuel (SeamProgress.new range L) segs pf hrun hcL hce hnE hcs hnS hJ
  rcases hA rfl with ⟨hpfc, hchain⟩ | ⟨sk, i, hpfc, hi, hsknS, hsknE, hsklt, hskge, hskle,
    hch1, hch2⟩
  · refine ⟨range.start, ?_, ?_, hchain, hS, hsegs⟩
    · rw [hpfc]
      rfl
    · intro r hr
      rw [hpfc] at hr
      exact absurd hr (by simp)
  · cases hti : List.take i segs with
    | cons seg0 rest0 =>
      exfalso
      have hmem : seg0 ∈ segs :=
        List.mem_of_mem_take (by rw [hti]; exact List.mem_cons_self ..)
      obtain ⟨-, -, hlt0, hdisj⟩ := hsegs seg0 hmem
      rw [hti] at hch1
      have hstart0 : seg0.start = range.start := hch1.1
      rcases hdisj with hd | hd
      · rcases hside with hs | hs
        · have hrlt : range.start.lt F32.negOne = true := by
            rw [← hstart0]
            exact F32.lt_of_lt_of_le' _ _ _ hlt0 hd
          exact F32.le_lt_absurd F32.negOne range.start hs hrlt
        · obtain ⟨hpfc2, -⟩ := hC hs
          rw [hpfc2] at hpfc
          exact nomatch hpfc
      · have h1 : F32.one.le range.start = true := by rw [← hstart0]; exact hd
        obtain ⟨hpfc2, -⟩ := hB h1
        rw [hpfc2] at hpfc
        exact nomatch hpfc
    | nil =>
      have hdrop : List.drop i segs = segs := by
        rcases List.take_eq_nil_iff.mp hti with h | h
        · rw [h]
          rfl
        · rw [h]
          simp
      rw [hti] at hch1
      have hstart_sk : range.start = sk.start := hch1
      refine ⟨sk.«end», ?_, ?_, ?_, hS, hsegs⟩
      · rw [hpfc]
        refine ⟨hstart_sk.symm, nonempty_of_lt _ _ hsklt, by decide, ?_, rfl⟩
        intro x hx
        exact nomatch hx
      · intro r hr
        rw [hpfc, List.mem_singleton] at hr
        rw [hr]
        exact ⟨hsknS, hsknE⟩
      · rw [← hdrop]
        exact hch2

theorem map_fst_statuses (cr : RangeF32 → Nat × RangeStatus) :
    ∀ l : List RangeF32,
      ((l.map (fun seg => (seg, cr seg))).map (fun x => (x.1, x.2.2))).map Prod.fst = l := by
  intro l
  induction l with
  | nil => rfl
  | cons hd t ih =>
    show hd :: ((t.map (fun seg => (seg, cr seg))).map (fun x => (x.1, x.2.2))).map Prod.fst
      = hd :: t
    rw [ih]

theorem processSegments_remaining : ∀ (ss : List (RangeF32 × RangeStatus))
    (p : SeamProgress), ∀ q ∈ processSegments p ss, q.remaining = p.remaining := by
  intro ss
  induction ss with
  | nil =>
    intro p q hq
    exact absurd hq (by simp [processSegments])
  | cons s rest ih =>
    intro p q hq
    obtain ⟨seg, st⟩ := s
    rcases List.mem_cons.mp hq with h | h
    · rw [h]
      exact complete_segment_remaining p seg st
    · rw [ih (p.complete_segment seg st) q h]
      exact complete_segment_remaining p seg st

/-- C2 (amended): during the worker's fold of checked segments into the
progress for an unfocused request whose range lies on one side of the dead
zone boundary -1, every streamed snapshot's complete run list is contiguous
from the original sweep start with nonempty runs and no two adjacent runs of
equal status (`RunsChain`), and the final snapshot's run list tiles the whole
request range while its remaining.start sits at the range end (the literal
claim fails mid-fold, where the last run's end lags remaining.start, and for
band-straddling ranges, where the planning-time Skipped run precedes earlier
checked segments; see the counterexample). -/
theorem claim_C2 (seam : Seam) (w_range : RangeF32) (L : F32) (filt : PointFilter)
    (fuel : Nat) (checkRange : RangeF32 → Nat × RangeStatus) (pts : SeamPoints)
    (hcL : L.IsCanon) (hcs : w_range.start.IsCanon) (hce : w_range.«end».IsCanon)
    (hns : w_range.start ≠ F32.nan) (hnE : w_range.«end» ≠ F32.nan)
    (hJ : w_range.start = w_range.«end» ∨ w_range.start.lt w_range.«end» = true)
    (hside : w_range.start.ge F32.negOne = true ∨ w_range.«end».le F32.negOne = true)
    (hflag : (planLoop fuel (SeamProgress.new w_range L)).2.2 = true)
    (hst : ∀ r, (checkRange r).2 ≠ RangeStatus.Unchecked) :
    (∀ out ∈ workerOutputs ⟨seam, w_range, L, false, filt⟩ fuel checkRange pts,
      ∃ q, out = (⟨seam, w_range, L, false, filt⟩, SeamOutput.Segments q) ∧
        ∃ m2, RunsChain w_range.start q.complete m2) ∧
    (∀ out, (workerOutputs ⟨seam, w_range, L, false, filt⟩ fuel checkRange pts).getLast? =
        some out →
      ∃ q, out.2 = SeamOutput.Segments q ∧
        RunsChain w_range.start q.complete w_range.«end» ∧
        q.remaining.start = w_range.«end») := by
  have hrun : planLoop fuel (SeamProgress.new w_range L) =
      ((planLoop fuel (SeamProgress.new w_range L)).1,
        (planLoop fuel (SeamProgress.new w_range L)).2.1, true) := by
    rw [← hflag]
  obtain ⟨m0, hchain0, hnn0, hcov0, hremstart, hsegfacts⟩ :=
    plan_initial_chain w_range L fuel _ _ hrun hcL hce hnE hcs hns hJ hside
  have hfacts : ∀ s ∈ ((planLoop fuel (SeamProgress.new w_range L)).1.map
      (fun seg => (seg, checkRange seg))).map (fun x => (x.1, x.2.2)),
      s.1.start ≠ F32.nan ∧ s.1.«end» ≠ F32.nan ∧ s.1.is_empty = false ∧
        s.2 ≠ RangeStatus.Unchecked := by
    intro s hs
    obtain ⟨x, hx, hxs⟩ := List.mem_map.mp hs
    obtain ⟨seg, hseg, hsegx⟩ := List.mem_map.mp hx
    obtain ⟨h1, h2, h3, -⟩ := hsegfacts seg hseg
    rw [← hxs, ← hsegx]
    exact ⟨h1, h2, nonempty_of_lt _ _ h3, hst seg⟩
  have hfold := processSegments_chain w_range.start
    (((planLoop fuel (SeamProgress.new w_range L)).1.map
      (fun seg => (seg, checkRange seg))).map (fun x => (x.1, x.2.2)))
    (planLoop fuel (SeamProgress.new w_range L)).2.1 m0 w_range.«end» hchain0 hnn0
    (by rw [map_fst_statuses]; exact hcov0) hfacts
  have houts : workerOutputs ⟨seam, w_range, L, false, filt⟩ fuel checkRange pts =
      (processSegments (planLoop fuel (SeamProgress.new w_range L)).2.1
        (((planLoop fuel (SeamProgress.new w_range L)).1.map
          (fun seg => (seg, checkRange seg))).map (fun x => (x.1, x.2.2)))).map
        (fun p => (⟨seam, w_range, L, false, filt⟩, SeamOutput.Segments p)) := rfl
  constructor
  · intro out hout
    rw [houts] at hout
    obtain ⟨q, hq, hqo⟩ := List.mem_map.mp hout
    obtain ⟨m2, hm2⟩ := hfold.1 q hq
    exact ⟨q, hqo.symm, m2, hm2⟩
  · intro out hlast
    rw [houts, List.getLast?_map] at hlast
    obtain ⟨q, hq, hfq⟩ := Option.map_eq_some'.mp hlast
    have hchainq := hfold.2.1 q hq
    have hqmem := List.mem_of_getLast?_eq_some hq
    have hrem := processSegments_remaining _ _ q hqmem
    refine ⟨q, ?_, hchainq, ?_⟩
    · rw [← hfq]
    · rw [hrem]
      exact hremstart

/-- C1 (amended): `Edge::accepts_projected` computes the claimed sign test on
r = flush(flush((y1-y)*(w2-w1)) - flush((w1-w)*(y2-y1))), but with the query
point's coordinates themselves flushed to zero before entering the inner
subtractions (the claim's formula, which leaves the query point unflushed,
is refuted by the counterexample below). -/
theorem claim_C1 (e : Edge) (point : ProjectedPoint F32) :
    e.accepts_projected point = e.acceptsFlushedFormula point := by
  rfl

/-- Counterexample to the literal wording of C1: for the edge from (0,0) to
(16384,0) with Positive orientation and the query point (w, y) = (+0, 2^-130),
the source (which flushes the query point's subnormal y to zero first)
accepts, while the claim's formula (which feeds y unflushed into y1 - y)
rejects. -/
theorem claim_C1_counterexample :
    Edge.accepts_projected ⟨ProjectionAxis.X, WallOrientation.Positive, ⟨0, 0⟩, ⟨16384, 0⟩⟩
        ⟨F32.zero, F32.fin false (-149) (2 ^ 19)⟩ = true ∧
    Edge.acceptsClaimFormula ⟨ProjectionAxis.X, WallOrientation.Positive, ⟨0, 0⟩, ⟨16384, 0⟩⟩
        ⟨F32.zero, F32.fin false (-149) (2 ^ 19)⟩ = false := by
  decide

/-- C5: for every target range with canonical non-NaN endpoints and every
canonical segment length, the planning loop terminates -- some finite fuel
makes `take_next_segment` reach None -- and every returned segment is
nonempty, i.e. each step strictly advances remaining.start (by at least one
representable value, since the next state's start is the segment's end). -/
theorem claim_C5 (range : RangeF32) (L : F32)
    (hcL : L.IsCanon) (hcs : range.start.IsCanon) (hce : range.«end».IsCanon)
    (hns : range.start ≠ F32.nan) (hnE : range.«end» ≠ F32.nan) :
    ∃ fuel, (planLoop fuel (SeamProgress.new range L)).2.2 = true ∧
      ∀ seg ∈ (planLoop fuel (SeamProgress.new range L)).1,
        seg.start.lt seg.«end» = true := by
  refine ⟨(range.«end».ord - range.start.ord).toNat + 1, ?_, ?_⟩
  · exact planLoop_terminates _ (SeamProgress.new range L) hcL hce hnE hcs hns le_rfl
  · exact planLoop_segs_lt _ (SeamProgress.new range L) hcL hce hnE hcs hns

/-- Witness for C5 at the concrete range [3, 7) with segment length 2. -/
theorem claim_C5_witness :
    ((F32.ofInt 2).IsCanon ∧ (F32.ofInt 3).IsCanon ∧ (F32.ofInt 7).IsCanon ∧
      F32.ofInt 3 ≠ F32.nan ∧ F32.ofInt 7 ≠ F32.nan) ∧
    (∃ fuel, (planLoop fuel (SeamProgress.new ⟨F32.ofInt 3, F32.ofInt 7⟩
        (F32.ofInt 2))).2.2 = true ∧
      ∀ seg ∈ (planLoop fuel (SeamProgress.new ⟨F32.ofInt 3, F32.ofInt 7⟩
          (F32.ofInt 2))).1, seg.start.lt seg.«end» = true) :=
  ⟨by decide,
    claim_C5 ⟨F32.ofInt 3, F32.ofInt 7⟩ (F32.ofInt 2) (by decide) (by decide) (by decide)
      (by decide) (by decide)⟩

/-- C6 (amended): sweeping the closed range [-50, 50] (the spec's inclusive
range constructor, whose exclusive end is the successor of 50) with segment
length 20 yields, in order, the checkable segments [-50,-30), [-30,-10),
[-10,-1), [1,21), [21,41), [41, succ 50), with [-1,1) recorded as the single
Skipped run and the sweep ending exactly at the range end (the claim's
single [-50,-1) segment, its Skipped-first ordering and its [41,50) final
segment are refuted by the counterexample below). -/
theorem claim_C6 :
    planLoop 10 (SeamProgress.new (RangeF32.inclusive (F32.ofInt (-50)) (F32.ofInt 50))
        (F32.ofInt 20)) =
      ([⟨F32.ofInt (-50), F32.ofInt (-30)⟩, ⟨F32.ofInt (-30), F32.ofInt (-10)⟩,
        ⟨F32.ofInt (-10), F32.negOne⟩, ⟨F32.one, F32.ofInt 21⟩,
        ⟨F32.ofInt 21, F32.ofInt 41⟩, ⟨F32.ofInt 41, next_f32 (F32.ofInt 50)⟩],
       ⟨F32.ofInt 20, [(⟨F32.negOne, F32.one⟩, RangeStatus.Skipped)],
        ⟨next_f32 (F32.ofInt 50), next_f32 (F32.ofInt 50)⟩⟩, true) := by
  decide

/-- Counterexample to the literal wording of C6: the sweep of [-50, 50] with
segment length 20 does not return the claimed segment list (a single
checkable [-50,-1) followed by [1,21), [21,41), [41,50)): the region left of
the band is split into three length-20 pieces and the final segment ends at
the successor of 50, not at 50. -/
theorem claim_C6_counterexample :
    (planLoop 10 (SeamProgress.new (RangeF32.inclusive (F32.ofInt (-50)) (F32.ofInt 50))
        (F32.ofInt 20))).1 ≠
      [⟨F32.ofInt (-50), F32.negOne⟩, ⟨F32.one, F32.ofInt 21⟩,
        ⟨F32.ofInt 21, F32.ofInt 41⟩, ⟨F32.ofInt 41, F32.ofInt 50⟩] := by
  decide

/-- C7: the edge built by `Edge::new` from vertex1 = (0,0,100),
vertex2 = (0,100,100) and normal = (1,0,0) has projection axis X, Positive
orientation, projected vertices (w,y) = (100,0) and (100,100) in that order,
and `is_vertical` returns true. -/
theorem claim_C7 :
    Edge.new (⟨0, 0, 100⟩, ⟨0, 100, 100⟩) ⟨F32.one, F32.zero, F32.zero⟩ =
      { projection_axis := ProjectionAxis.X, orientation := WallOrientation.Positive,
        vertex1 := ⟨100, 0⟩, vertex2 := ⟨100, 100⟩ } ∧
    (Edge.new (⟨0, 0, 100⟩, ⟨0, 100, 100⟩) ⟨F32.one, F32.zero, F32.zero⟩).is_vertical
      = true := by
  decide

/-- C3 (amended): for a well-formed range with canonical non-NaN endpoints,
once the planning loop finishes, the returned segments are each nonempty and
either tile the whole target range exactly (no gap, no overlap, consecutive
segments sharing an endpoint), or tile it exactly up to a single elided
subinterval bracketed by the dead-zone bounds (the Skipped band portion),
which is the gap refuting the claim's literal "exactly reconstructs"
wording (see the counterexample). -/
theorem claim_C3 (range : RangeF32) (L : F32) (fuel : Nat)
    (hcL : L.IsCanon) (hcs : range.start.IsCanon) (hce : range.«end».IsCanon)
    (hns : range.start ≠ F32.nan) (hnE : range.«end» ≠ F32.nan)
    (hJ : range.start = range.«end» ∨ range.start.lt range.«end» = true)
    (hflag : (planLoop fuel (SeamProgress.new range L)).2.2 = true) :
    (∀ seg ∈ (planLoop fuel (SeamProgress.new range L)).1,
      seg.start.lt seg.«end» = true) ∧
    (chainCovers range.start (planLoop fuel (SeamProgress.new range L)).1 range.«end» ∨
      ∃ (sk : RangeF32) (i : Nat),
        i ≤ (planLoop fuel (SeamProgress.new range L)).1.length ∧
        sk.start.ge F32.negOne = true ∧ sk.«end».le F32.one = true ∧
        sk.start.lt sk.«end» = true ∧
        chainCovers range.start
          (List.take i (planLoop fuel (SeamProgress.new range L)).1) sk.start ∧
        chainCovers sk.«end»
          (List.drop i (planLoop fuel (SeamProgress.new range L)).1) range.«end») := by
  have hrun : planLoop fuel (SeamProgress.new range L) =
      ((planLoop fuel (SeamProgress.new range L)).1,
        (planLoop fuel (SeamProgress.new range L)).2.1, true) := by
    rw [← hflag]
  obtain ⟨hE, hS, hsegs, hA, hB, hC⟩ :=
    planLoop_run fuel (SeamProgress.new range L) _ _ hrun hcL hce hnE hcs hns hJ
  constructor
  · intro seg hseg
    exact (hsegs seg hseg).2.2.1
  · rcases hA rfl with ⟨-, hchain⟩ | ⟨sk, i, -, hi, -, -, hsklt, hskge, hskle, hch1, hch2⟩
    · exact Or.inl hchain
    · exact Or.inr ⟨sk, i, hi, hskge, hskle, hsklt, hch1, hch2⟩

/-- Witness for C3 at the concrete range [2, 5) with segment length 2 (no
band contact: the segments tile the range exactly). -/
theorem claim_C3_witness :
    ((planLoop 10 (SeamProgress.new ⟨F32.ofInt 2, F32.ofInt 5⟩ (F32.ofInt 2))).2.2
        = true) ∧
    ((∀ seg ∈ (planLoop 10 (SeamProgress.new ⟨F32.ofInt 2, F32.ofInt 5⟩
        (F32.ofInt 2))).1, seg.start.lt seg.«end» = true) ∧
      (chainCovers (F32.ofInt 2)
          (planLoop 10 (SeamProgress.new ⟨F32.ofInt 2, F32.ofInt 5⟩ (F32.ofInt 2))).1
          (F32.ofInt 5) ∨
        ∃ (sk : RangeF32) (i : Nat),
          i ≤ (planLoop 10 (SeamProgress.new ⟨F32.ofInt 2, F32.ofInt 5⟩
            (F32.ofInt 2))).1.length ∧
          sk.start.ge F32.negOne = true ∧ sk.«end».le F32.one = true ∧
          sk.start.lt sk.«end» = true ∧
          chainCovers (F32.ofInt 2)
            (List.take i (planLoop 10 (SeamProgress.new ⟨F32.ofInt 2, F32.ofInt 5⟩
              (F32.ofInt 2))).1) sk.start ∧
          chainCovers sk.«end»
            (List.drop i (planLoop 10 (SeamProgress.new ⟨F32.ofInt 2, F32.ofInt 5⟩
              (F32.ofInt 2))).1) (F32.ofInt 5))) :=
  ⟨by decide,
    claim_C3 ⟨F32.ofInt 2, F32.ofInt 5⟩ (F32.ofInt 2) 10 (by decide) (by decide)
      (by decide) (by decide) (by decide) (Or.inr (by decide)) (by decide)⟩

/-- Counterexample to the literal wording of C3: sweeping [0, 2) with
segment length 20 returns the single segment [1, 2), whose start 1 differs
from the range start 0 -- the band portion [0, 1) is skipped, so the
returned segments do not reconstruct the original range. -/
theorem claim_C3_counterexample :
    (planLoop 10 (SeamProgress.new ⟨F32.zero, F32.ofInt 2⟩ (F32.ofInt 20))).1 =
      [⟨F32.one, F32.ofInt 2⟩] ∧ F32.one.beq F32.zero = false := by
  decide

/-- C4: for a well-formed range with canonical non-NaN endpoints, once the
planning loop finishes, (1) no returned segment -- these are exactly the
ranges passed to the range/point checker by the worker -- contains any point
of the dead zone [-1, 1), and (2) every point of the target range that lies
in [-1, 1) is covered by a run recorded with status Skipped. -/
theorem claim_C4 (range : RangeF32) (L : F32) (fuel : Nat)
    (hcL : L.IsCanon) (hcs : range.start.IsCanon) (hce : range.«end».IsCanon)
    (hns : range.start ≠ F32.nan) (hnE : range.«end» ≠ F32.nan)
    (hJ : range.start = range.«end» ∨ range.start.lt range.«end» = true)
    (hflag : (planLoop fuel (SeamProgress.new range L)).2.2 = true) :
    (∀ seg ∈ (planLoop fuel (SeamProgress.new range L)).1,
      ∀ w, inRange w seg → ¬ inBand w) ∧
    (∀ w, inRange w range → inBand w →
      ∃ sk, (sk, RangeStatus.Skipped) ∈
          (planLoop fuel (SeamProgress.new range L)).2.1.complete ∧
        inRange w sk) := by
  have hrun : planLoop fuel (SeamProgress.new range L) =
      ((planLoop fuel (SeamProgress.new range L)).1,
        (planLoop fuel (SeamProgress.new range L)).2.1, true) := by
    rw [← hflag]
  obtain ⟨hE, hS, hsegs, hA, hB, hC⟩ :=
    planLoop_run fuel (SeamProgress.new range L) _ _ hrun hcL hce hnE hcs hns hJ
  have havoid : ∀ seg ∈ (planLoop fuel (SeamProgress.new range L)).1,
      ∀ w, inRange w seg → ¬ inBand w := by
    intro seg hseg w hw hb
    obtain ⟨hw1, hw2⟩ := hw
    obtain ⟨hb1, hb2⟩ := hb
    obtain ⟨-, -, -, hdisj⟩ := hsegs seg hseg
    rcases hdisj with hd | hd
    · have hwlt : w.lt F32.negOne = true := F32.lt_of_lt_of_le' _ _ _ hw2 hd
      exact F32.le_lt_absurd F32.negOne w hb1 hwlt
    · have hle : F32.one.le w = true := F32.le_trans'' _ _ _ hd hw1
      exact F32.le_lt_absurd F32.one w hle hb2
  refine ⟨havoid, ?_⟩
  intro w hw hb
  have hwn : w ≠ F32.nan := F32.le_ne_nan_right _ _ hb.1
  rcases hA rfl with ⟨-, hchain⟩ | ⟨sk, i, hpfc, -, hsknS, hsknE, -, -, -, hch1, hch2⟩
  · exfalso
    obtain ⟨seg, hmem, hin1, hin2⟩ := chainCovers_mem w _ _ _ hchain
      (fun s hs => (hsegs s hs).2.1) hw.1 hw.2
    exact havoid seg hmem w ⟨hin1, hin2⟩ hb
  · have hskstart : sk.start.le w = true := by
      cases hle : sk.start.le w with
      | true => rfl
      | false =>
        exfalso
        have hwlt : w.lt sk.start = true := F32.lt_of_not_le w sk.start hwn hsknS hle
        obtain ⟨seg, hmem, hin1, hin2⟩ := chainCovers_mem w _ _ _ hch1
          (fun s hs => (hsegs s (List.mem_of_mem_take hs)).2.1) hw.1 hwlt
        exact havoid seg (List.mem_of_mem_take hmem) w ⟨hin1, hin2⟩ hb
    have hskend : w.lt sk.«end» = true := by
      cases hlt : w.lt sk.«end» with
      | true => rfl
      | false =>
        exfalso
        have hwge : sk.«end».le w = true := F32.le_of_not_lt w sk.«end» hwn hsknE hlt
        obtain ⟨seg, hmem, hin1, hin2⟩ := chainCovers_mem w _ _ _ hch2
          (fun s hs => (hsegs s (List.mem_of_mem_drop hs)).2.1) hwge hw.2
        exact havoid seg (List.mem_of_mem_drop hmem) w ⟨hin1, hin2⟩ hb
    refine ⟨sk, ?_, hskstart, hskend⟩
    rw [hpfc]
    exact List.mem_singleton_self _

/-- Witness for C4 at the concrete range [-2, 2) with segment length 1,
which straddles the dead zone. -/
theorem claim_C4_witness :
    ((planLoop 10 (SeamProgress.new ⟨F32.ofInt (-2), F32.ofInt 2⟩ (F32.one))).2.2
        = true) ∧
    ((∀ seg ∈ (planLoop 10 (SeamProgress.new ⟨F32.ofInt (-2), F32.ofInt 2⟩
        (F32.one))).1, ∀ w, inRange w seg → ¬ inBand w) ∧
      (∀ w, inRange w ⟨F32.ofInt (-2), F32.ofInt 2⟩ → inBand w →
        ∃ sk, (sk, RangeStatus.Skipped) ∈
            (planLoop 10 (SeamProgress.new ⟨F32.ofInt (-2), F32.ofInt 2⟩
              (F32.one))).2.1.complete ∧
          inRange w sk)) :=
  ⟨by decide,
    claim_C4 ⟨F32.ofInt (-2), F32.ofInt 2⟩ F32.one 10 (by decide) (by decide) (by decide)
      (by decide) (by decide) (Or.inr (by decide)) (by decide)⟩

theorem updateRecvOne_segments_ne_none (proc : SeamProcessor) (req : SeamRequest)
    (q : SeamProgress) :
    proc.updateRecvOne (req, SeamOutput.Segments q) ≠ none := by
  unfold SeamProcessor.updateRecvOne
  dsimp only
  by_cases hf : req.filter ≠ proc.filter
  · rw [if_pos hf]
    simp
  · rw [if_neg hf]
    by_cases hfoc : req.is_focused = true
    · rw [if_pos hfoc]
      cases proc.focused_seam with
      | none => simp
      | some fp =>
        dsimp only
        split_ifs <;> simp
    · rw [if_neg hfoc]
      simp

/-- C8: `set_filter` empties the per-seam progress map, clears the focused
cache and the queue, and installs the new filter; afterwards every received
worker output carrying a different filter is discarded, leaving the state
unchanged. -/
theorem claim_C8 (p : SeamProcessor) (f : PointFilter) :
    (p.set_filter f).progress = [] ∧ (p.set_filter f).focused_seam = none ∧
    (p.set_filter f).queue = [] ∧ (p.set_filter f).filterOf = f ∧
    (∀ msg : SeamRequest × SeamOutput, msg.1.filter ≠ f →
      (p.set_filter f).updateRecvOne msg = some (p.set_filter f)) := by
  refine ⟨rfl, rfl, rfl, rfl, ?_⟩
  intro msg hmsg
  unfold SeamProcessor.updateRecvOne
  dsimp only
  rw [if_pos]
  exact hmsg

/-- Witness for C8: a processor whose filter is changed to Gap discards an
output computed under the None filter. -/
theorem claim_C8_witness :
    PointFilter.None ≠ PointFilter.Gap ∧
    (SeamProcessor.updateRecvOne
        (SeamProcessor.set_filter ⟨[], [], [], none, PointFilter.None⟩ PointFilter.Gap)
        (⟨testSeam, ⟨F32.zero, F32.one⟩, F32.one, false, PointFilter.None⟩,
          SeamOutput.Points ⟨[]⟩) =
      some (SeamProcessor.set_filter ⟨[], [], [], none, PointFilter.None⟩
        PointFilter.Gap)) :=
  ⟨by decide,
    (claim_C8 ⟨[], [], [], none, PointFilter.None⟩ PointFilter.Gap).2.2.2.2
      (⟨testSeam, ⟨F32.zero, F32.one⟩, F32.one, false, PointFilter.None⟩,
        SeamOutput.Points ⟨[]⟩) (by decide)⟩

/-- C10: for an unfocused request, every output the worker produces is a
Segments output addressed to that request, and feeding any such output to
the consumer's receive step never reaches the panic branch (modelled as the
`none` result of `updateRecvOne`). -/
theorem claim_C10 (request : SeamRequest) (fuel : Nat)
    (checkRange : RangeF32 → Nat × RangeStatus) (pts : SeamPoints)
    (hunf : request.is_focused = false) :
    ∀ out ∈ workerOutputs request fuel checkRange pts,
      out.1 = request ∧ (∃ q, out.2 = SeamOutput.Segments q) ∧
      ∀ proc : SeamProcessor, proc.updateRecvOne out ≠ none := by
  intro out hout
  unfold workerOutputs at hout
  rw [if_neg (by rw [hunf]; simp)] at hout
  obtain ⟨q, hq, hout2⟩ := List.mem_map.mp hout
  refine ⟨by rw [← hout2], ⟨q, by rw [← hout2]⟩, ?_⟩
  intro proc
  rw [← hout2]
  exact updateRecvOne_segments_ne_none proc request q

/-- Witness for C10 at a concrete unfocused request over [0, 2) with
segment length 1. -/
theorem claim_C10_witness :
    ((⟨testSeam, ⟨F32.zero, F32.ofInt 2⟩, F32.one, false,
        PointFilter.None⟩ : SeamRequest).is_focused = false) ∧
    (∀ out ∈ workerOutputs ⟨testSeam, ⟨F32.zero, F32.ofInt 2⟩, F32.one, false,
        PointFilter.None⟩ 10 (fun _ => (0, RangeStatus.Checked false false)) ⟨[]⟩,
      out.1 = (⟨testSeam, ⟨F32.zero, F32.ofInt 2⟩, F32.one, false,
        PointFilter.None⟩ : SeamRequest) ∧
      (∃ q, out.2 = SeamOutput.Segments q) ∧
      ∀ proc : SeamProcessor, proc.updateRecvOne out ≠ none) :=
  ⟨rfl,
    claim_C10 ⟨testSeam, ⟨F32.zero, F32.ofInt 2⟩, F32.one, false, PointFilter.None⟩ 10
      (fun _ => (0, RangeStatus.Checked false false)) ⟨[]⟩ rfl⟩

/-- C9: calling `focused_seam_progress` twice with the same seam, range and
(non-NaN) segment length, with nothing received in between, returns the same
snapshot the second time and leaves the processor state (focused cache and
queue included) unchanged. -/
theorem claim_C9 (p : SeamProcessor) (seam : Seam) (w_range : RangeF32) (L : F32)
    (hns : w_range.start ≠ F32.nan) (hne : w_range.«end» ≠ F32.nan)
    (hnL : L ≠ F32.nan) :
    (p.focused_seam_progress seam w_range L).2.focused_seam_progress seam w_range L =
      ((p.focused_seam_progress seam w_range L).1,
        (p.focused_seam_progress seam w_range L).2) := by
  have hbeqR : ∀ filt : PointFilter,
      SeamRequest.beqR ⟨seam, w_range, L, true, filt⟩ ⟨seam, w_range, L, true, filt⟩
        = true := by
    intro filt
    simp [SeamRequest.beqR, RangeF32.beqR, F32.beq_refl w_range.start hns,
      F32.beq_refl w_range.«end» hne, F32.beq_refl L hnL]
  have hseam : (seam == seam) = true := beq_self_eq_true' seam
  cases hfs : p.focused_seam with
  | none =>
    have h1 : p.focused_seam_progress seam w_range L =
        (SeamOutput.Segments (SeamProgress.new w_range L),
          { p with
            focused_seam := some (⟨seam, w_range, L, true, p.filter⟩,
              SeamOutput.Segments (SeamProgress.new w_range L)),
            queue := [⟨seam, w_range, L, true, p.filter⟩] }) := by
      unfold SeamProcessor.focused_seam_progress
      rw [hfs]
    rw [h1]
    unfold SeamProcessor.focused_seam_progress
    dsimp only
    rw [if_pos hseam, if_pos (hbeqR p.filter)]
  | some fp =>
    obtain ⟨freq, fprog⟩ := fp
    by_cases hbr : SeamRequest.beqR freq ⟨seam, w_range, L, true, p.filter⟩ = true
    · have hfseam : (freq.seam == seam) = true := by
        unfold SeamRequest.beqR at hbr
        rw [Bool.and_eq_true] at hbr
        rw [Bool.and_eq_true] at hbr
        rw [Bool.and_eq_true] at hbr
        rw [Bool.and_eq_true] at hbr
        exact hbr.1.1.1.1
      have h1 : p.focused_seam_progress seam w_range L = (fprog, p) := by
        unfold SeamProcessor.focused_seam_progress
        rw [hfs]
        dsimp only
        rw [if_pos hfseam, if_pos hbr]
      rw [h1]
      unfold SeamProcessor.focused_seam_progress
      rw [hfs]
      dsimp only
      rw [if_pos hfseam, if_pos hbr]
    · have h1 : p.focused_seam_progress seam w_range L =
          (if (freq.seam == seam) = true then fprog
            else SeamOutput.Segments (SeamProgress.new w_range L),
          { p with
            focused_seam := some (⟨seam, w_range, L, true, p.filter⟩,
              if (freq.seam == seam) = true then fprog
                else SeamOutput.Segments (SeamProgress.new w_range L)),
            queue := [⟨seam, w_range, L, true, p.filter⟩] }) := by
        unfold SeamProcessor.focused_seam_progress
        rw [hfs]
        dsimp only
        rw [if_neg hbr]
      rw [h1]
      unfold SeamProcessor.focused_seam_progress
      dsimp only
      rw [if_pos hseam, if_pos (hbeqR p.filter)]

/-- Witness for C9 at a fresh processor and the range [0, 1) with segment
length 1. -/
theorem claim_C9_witness :
    (F32.zero ≠ F32.nan ∧ F32.one ≠ F32.nan) ∧
    ((SeamProcessor.focused_seam_progress ⟨[], [], [], none, PointFilter.None⟩ testSeam
        ⟨F32.zero, F32.one⟩ F32.one).2.focused_seam_progress testSeam
        ⟨F32.zero, F32.one⟩ F32.one =
      ((SeamProcessor.focused_seam_progress ⟨[], [], [], none, PointFilter.None⟩ testSeam
          ⟨F32.zero, F32.one⟩ F32.one).1,
        (SeamProcessor.focused_seam_progress ⟨[], [], [], none, PointFilter.None⟩ testSeam
          ⟨F32.zero, F32.one⟩ F32.one).2)) :=
  ⟨⟨by decide, by decide⟩,
    claim_C9 ⟨[], [], [], none, PointFilter.None⟩ testSeam ⟨F32.zero, F32.one⟩ F32.one
      (by decide) (by decide) (by decide)⟩

/-- Witness for C2 at the concrete unfocused request over [1, 41) with
segment length 20 and a constant Checked classifier. -/
theorem claim_C2_witness :
    ((planLoop 10 (SeamProgress.new ⟨F32.ofInt 1, F32.ofInt 41⟩ (F32.ofInt 20))).2.2
        = true) ∧
    (∀ out ∈ workerOutputs ⟨testSeam, ⟨F32.ofInt 1, F32.ofInt 41⟩, F32.ofInt 20, false,
        PointFilter.None⟩ 10 (fun _ => (0, RangeStatus.Checked false false)) ⟨[]⟩,
      ∃ q, out = (⟨testSeam, ⟨F32.ofInt 1, F32.ofInt 41⟩, F32.ofInt 20, false,
          PointFilter.None⟩, SeamOutput.Segments q) ∧
        ∃ m2, RunsChain (F32.ofInt 1) q.complete m2) :=
  ⟨by decide,
    (claim_C2 testSeam ⟨F32.ofInt 1, F32.ofInt 41⟩ (F32.ofInt 20) PointFilter.None 10
      (fun _ => (0, RangeStatus.Checked false false)) ⟨[]⟩ (by decide) (by decide)
      (by decide) (by decide) (by decide) (Or.inr (by decide)) (Or.inl (by decide))
      (by decide) (fun r h => RangeStatus.noConfusion h)).1⟩

/-- Counterexample to the literal wording of C2: for the unfocused request
over [1, 41) with segment length 20, the first snapshot streamed during the
fold has a completed run ([1,21)) whose end does not equal remaining.start
(already 41 after planning), refuting "at every point during ... folding ...
the last run's end equals remaining.start". -/
theorem claim_C2_counterexample :
    ((workerOutputs ⟨testSeam, ⟨F32.ofInt 1, F32.ofInt 41⟩, F32.ofInt 20, false,
        PointFilter.None⟩ 10 (fun _ => (0, RangeStatus.Checked false false)) ⟨[]⟩).head?.map
      (fun out =>
        match out.2 with
        | SeamOutput.Segments q =>
          match q.complete.getLast? with
          | some r => r.1.«end».beq q.remaining.start
          | none => true
        | SeamOutput.Points _ => true)) = some false := by
  decide
